import Mathlib

/-!
Anitomy tokenizer: a shallow embedding of `src/src/tokenizer.cpp` and `src/include/anitomy/token.hpp`, and the
properties of the tokenizer proved on it.

Modelling decisions:

* Strings (`string_t`, `string_view_t`) are lists of characters.
* A position returned by `find` / `find_first_of` is an `Option Nat`; `none` stands for `npos`.
* A token iterator is an index into the token vector; `tokens.length` stands for `tokens.end()`.
* The two segmenters are total functions: each of their loops recurses on a strictly shorter
  view.
* `ValidateTokens` mutates the vector it scans, so its two loops carry an iteration budget; the
  budget handed in is the length of the vector plus one.
* Dereferencing `tokens.end()` and calling `front()` on an empty string are undefined behaviour
  in the source; the embedding reports them, and an exhausted budget, as a `Fault`.
* `FindPreviousToken`, `FindNextToken` and `IsNumericString` are declared or used by the sources
  but their bodies are not part of them; they are modelled from the specification.
-/

namespace anitomy

/-! ## Data model (`token.hpp`) -/

/-- The `enum class TokenType` of `token.hpp`. -/
inductive TokenType
  | Unknown
  | Bracket
  | Delimiter
  | Identifier
  | Invalid
deriving DecidableEq, Repr

/-- The `struct Token` of `token.hpp`. The string member is called `value` in `token.hpp` and
`content` in `tokenizer.cpp`; the name used by the tokenizer is kept. -/
structure Token where
  type : TokenType
  content : List Char
  enclosed : Bool
deriving DecidableEq, Repr

/-- The `Tokens` vector. -/
abbrev Tokens := List Token

/-- The part of `Options` the tokenizer reads. -/
structure Options where
  allowed_delimiters : List Char

/-- The ways the source can leave defined behaviour. -/
inductive Fault
  /-- An iterator equal to `tokens.end()` was dereferenced. -/
  | EndDeref
  /-- The member `front()` was called on an empty string. -/
  | EmptyFront
  /-- A loop of the embedding used up its iteration budget. -/
  | OutOfFuel
deriving DecidableEq, Repr

/-! ## String helpers (`std::basic_string_view`) -/

/-- Position of the first character satisfying `p`, `none` for `npos`. -/
def find_if (p : Char → Bool) : List Char → Option Nat
  | [] => none
  | c :: rest => if p c then some 0 else (find_if p rest).map (· + 1)

/-- The member `view.find_first_of(chars)`. -/
def find_first_of (view chars : List Char) : Option Nat :=
  find_if (fun c => chars.contains c) view

/-- The member `view.find(ch)`. -/
def find (view : List Char) (ch : Char) : Option Nat :=
  find_if (fun c => c == ch) view

/-- The member `view.substr(pos, n)`. -/
def substr (view : List Char) (pos n : Nat) : List Char :=
  (view.drop pos).take n

/-- The call `view.substr(0, pos)` where `pos` may be `npos`. -/
def substr_to (view : List Char) : Option Nat → List Char
  | none => view
  | some pos => substr view 0 pos

/-- The call `view.remove_prefix(n)`. -/
def remove_front (view : List Char) (n : Nat) : List Char :=
  view.drop n

/-- The test `pos > 0` on a `size_t` position (`npos` is the largest `size_t`). -/
def pos_gt_zero : Option Nat → Bool
  | none => true
  | some pos => decide (0 < pos)

/-! ## Segmenters (`tokenizer.cpp`, lines 30-86) -/

/-- The constant `brackets_left`: parenthesis, square bracket, curly bracket, corner bracket,
white corner bracket, black lenticular bracket, fullwidth parenthesis. -/
def brackets_left : List Char :=
  ['(', '[', '{', '\u300C', '\u300E', '\u3010', '\uFF08']

/-- The constant `brackets_right`. -/
def brackets_right : List Char :=
  [')', ']', '}', '\u300D', '\u300F', '\u3011', '\uFF09']

/-- The value of `char_t{}`. -/
def char_zero : Char := Char.ofNat 0

/-- The function `TokenizeByDelimiters` (lines 71-86). -/
def TokenizeByDelimiters (view : List Char) (options : Options) (enclosed : Bool)
    (tokens : Tokens) : Tokens :=
  if _h : view = [] then tokens else
    let pos := find_first_of view options.allowed_delimiters
    let tokens :=
      if pos_gt_zero pos then tokens ++ [⟨TokenType.Unknown, substr_to view pos, enclosed⟩]
      else tokens
    match pos with
    | none => tokens
    | some p =>
      TokenizeByDelimiters (remove_front view (p + 1)) options enclosed
        (tokens ++ [⟨TokenType.Delimiter, substr view p 1, enclosed⟩])
termination_by view.length
decreasing_by
  have hpos : 0 < view.length := List.length_pos.mpr _h
  simp only [remove_front, List.length_drop]
  omega

/-- The loop of `TokenizeByBrackets` (lines 46-68); `is_bracket_open` and `matching_bracket`
are the two locals of the function. The two `at` calls of lines 60-61 are read with a default
value; `bracket_lookup_in_range` shows that they are always in range. -/
def TokenizeByBracketsLoop (view : List Char) (options : Options) (is_bracket_open : Bool)
    (matching_bracket : Char) (tokens : Tokens) : Tokens :=
  if _h : view = [] then tokens else
    let pos :=
      if !is_bracket_open then find_first_of view brackets_left
      else find view matching_bracket
    let tokens :=
      if pos_gt_zero pos then
        TokenizeByDelimiters (substr_to view pos) options is_bracket_open tokens
      else tokens
    match pos with
    | none => tokens
    | some p =>
      let matching_bracket :=
        if !is_bracket_open then
          let bracket_index := brackets_left.indexOf (view.getD p char_zero)
          brackets_right.getD bracket_index char_zero
        else matching_bracket
      TokenizeByBracketsLoop (remove_front view (p + 1)) options (!is_bracket_open)
        matching_bracket (tokens ++ [⟨TokenType.Bracket, substr view p 1, true⟩])
termination_by view.length
decreasing_by
  have hpos : 0 < view.length := List.length_pos.mpr _h
  simp only [remove_front, List.length_drop]
  omega

/-- The function `TokenizeByBrackets` (lines 30-69). -/
def TokenizeByBrackets (view : List Char) (options : Options) (tokens : Tokens) : Tokens :=
  TokenizeByBracketsLoop view options false char_zero tokens

/-! ## Token navigation (`token.hpp`, lines 61-62; the bodies are not part of the sources) -/

/-- Modelled from the spec: the validity predicate behind `kFlagValid`, whose evaluation
(`FindToken`) is only declared in `token.hpp`. Glossary: a valid token is "any token whose kind
is not `Invalid` at the time of a given query". -/
def is_valid (t : Token) : Bool :=
  t.type != TokenType.Invalid

/-- Position of the first valid token of a sequence. -/
def find_valid : Tokens → Option Nat
  | [] => none
  | t :: rest => if is_valid t then some 0 else (find_valid rest).map (· + 1)

/-- Modelled from the spec: `FindPreviousToken(tokens, first, kFlagValid)`, declared in
`token.hpp` without a body. Section 4.4: "return the nearest token in the requested direction
satisfying all flags, or an end/past-the-end sentinel if none exists"; the wrapper is "fixed to
the nearest valid token predicate". The scan starts just before `first`. -/
def FindPreviousToken (tokens : Tokens) : Nat → Nat
  | 0 => tokens.length
  | i + 1 =>
    match tokens[i]? with
    | some t => if is_valid t then i else FindPreviousToken tokens i
    | none => FindPreviousToken tokens i

/-- Modelled from the spec: `FindNextToken(tokens, first, kFlagValid)`, declared in `token.hpp`
without a body; see `FindPreviousToken`. The scan starts just after `first`. -/
def FindNextToken (tokens : Tokens) (first : Nat) : Nat :=
  match find_valid (tokens.drop (first + 1)) with
  | some k => first + 1 + k
  | none => tokens.length

/-- A decimal digit. -/
def IsNumericChar (c : Char) : Bool :=
  decide ('0' ≤ c) && decide (c ≤ '9')

/-- Modelled from the spec: `IsNumericString` of `anitomy/util.hpp`, which is not part of the
sources. Section 4.3: "both their values are purely numeric strings". -/
def IsNumericString (str : List Char) : Bool :=
  !str.isEmpty && str.all IsNumericChar

/-! ## Validator (`tokenizer.cpp`, lines 90-172) -/

/-- The member `content.front()`. -/
def front (content : List Char) : Except Fault Char :=
  match content with
  | [] => .error .EmptyFront
  | c :: _ => .ok c

/-- The expression `it->content.front()`. -/
def front_at (tokens : Tokens) (it : Nat) : Except Fault Char :=
  match tokens[it]? with
  | none => .error .EndDeref
  | some t => front t.content

/-- The lambda `is_delimiter_token` (lines 91-93). -/
def is_delimiter_token (tokens : Tokens) (it : Nat) : Bool :=
  match tokens[it]? with
  | none => false
  | some t => t.type == TokenType.Delimiter

/-- The lambda `is_unknown_token` (lines 94-96). -/
def is_unknown_token (tokens : Tokens) (it : Nat) : Bool :=
  match tokens[it]? with
  | none => false
  | some t => t.type == TokenType.Unknown

/-- The lambda `is_single_character_token` (lines 97-100). -/
def is_single_character_token (tokens : Tokens) (it : Nat) : Bool :=
  match tokens[it]? with
  | none => false
  | some t =>
    t.type == TokenType.Unknown && t.content.length == 1 && t.content.head? != some '-'

/-- The assignment `it->type = type`. -/
def set_type (tokens : Tokens) (it : Nat) (type : TokenType) : Except Fault Tokens :=
  match tokens[it]? with
  | none => .error .EndDeref
  | some t => .ok (tokens.set it { t with type := type })

/-- The lambda `append_token_to` (lines 101-105). -/
def append_token_to (tokens : Tokens) (token append_to : Nat) : Except Fault Tokens :=
  match tokens[token]?, tokens[append_to]? with
  | some t, some a =>
    set_type (tokens.set append_to { a with content := a.content ++ t.content }) token
      TokenType.Invalid
  | _, _ => .error .EndDeref

/-- The `while` loop of lines 119-127. -/
def absorb_loop : Nat → Tokens → Nat → Nat → Char → Except Fault Tokens
  | 0, _, _, _, _ => .error .OutOfFuel
  | fuel + 1, tokens, next_token, prev_token, delimiter =>
    if is_unknown_token tokens next_token then do
      let tokens ← append_token_to tokens next_token prev_token
      let next_token := FindNextToken tokens next_token
      if is_delimiter_token tokens next_token then do
        let next_front ← front_at tokens next_token
        if next_front = delimiter then do
          let tokens ← append_token_to tokens next_token prev_token
          let next_token := FindNextToken tokens next_token
          absorb_loop fuel tokens next_token prev_token delimiter
        else absorb_loop fuel tokens next_token prev_token delimiter
      else absorb_loop fuel tokens next_token prev_token delimiter
    else .ok tokens

/-- The check for adjacent delimiters (lines 137-153). -/
def adjacent_delimiters (tokens : Tokens) (token prev_token next_token : Nat)
    (delimiter : Char) : Except Fault Tokens :=
  if is_unknown_token tokens prev_token && is_delimiter_token tokens next_token then do
    let next_delimiter ← front_at tokens next_token
    if delimiter ≠ next_delimiter ∧ delimiter ≠ ',' then
      if next_delimiter = ' ' ∨ next_delimiter = '_' then
        append_token_to tokens token prev_token
      else .ok tokens
    else .ok tokens
  else if is_delimiter_token tokens prev_token && is_delimiter_token tokens next_token then do
    let prev_delimiter ← front_at tokens prev_token
    let next_delimiter ← front_at tokens next_token
    if prev_delimiter = next_delimiter ∧ prev_delimiter ≠ delimiter then
      set_type tokens token TokenType.Unknown
    else .ok tokens
  else .ok tokens

/-- The check for other special cases (lines 155-164). -/
def special_cases (tokens : Tokens) (token prev_token next_token : Nat)
    (delimiter : Char) : Except Fault Tokens :=
  if delimiter = '&' ∨ delimiter = '+' then
    if is_unknown_token tokens prev_token && is_unknown_token tokens next_token then
      match tokens[prev_token]?, tokens[next_token]? with
      | some p, some n =>
        if IsNumericString p.content && IsNumericString n.content then do
          let tokens ← append_token_to tokens token prev_token
          append_token_to tokens next_token prev_token
        else .ok tokens
      | _, _ => .error .EndDeref
    else .ok tokens
  else .ok tokens

/-- The body of the `for` loop of lines 107-165 for the iterator `token`. -/
def validate_token (tokens : Tokens) (token : Nat) : Except Fault Tokens :=
  match tokens[token]? with
  | none => .error .EndDeref
  | some t =>
    if t.type ≠ TokenType.Delimiter then .ok tokens
    else do
      let delimiter ← front t.content
      let prev_token := FindPreviousToken tokens token
      let next_token := FindNextToken tokens token
      if delimiter ≠ ' ' ∧ delimiter ≠ '_' then
        if is_single_character_token tokens prev_token then do
          let tokens ← append_token_to tokens token prev_token
          absorb_loop (tokens.length + 1) tokens next_token prev_token delimiter
        else if is_single_character_token tokens next_token then do
          let tokens ← append_token_to tokens token prev_token
          append_token_to tokens next_token prev_token
        else do
          let tokens ← adjacent_delimiters tokens token prev_token next_token delimiter
          special_cases tokens token prev_token next_token delimiter
      else do
        let tokens ← adjacent_delimiters tokens token prev_token next_token delimiter
        special_cases tokens token prev_token next_token delimiter

/-- The `for` loop of lines 107-165, from the iterator `token` on. -/
def validate_scan : Nat → Tokens → Nat → Except Fault Tokens
  | 0, _, _ => .error .OutOfFuel
  | fuel + 1, tokens, token =>
    if token ≠ tokens.length then do
      let tokens ← validate_token tokens token
      validate_scan fuel tokens (token + 1)
    else .ok tokens

/-- The erase-remove of lines 167-171. -/
def remove_invalid (tokens : Tokens) : Tokens :=
  tokens.filter (fun token => !(token.type == TokenType.Invalid))

/-- The function `ValidateTokens` (lines 90-172). -/
def ValidateTokens (tokens : Tokens) : Except Fault Tokens := do
  let tokens ← validate_scan (tokens.length + 1) tokens 0
  .ok (remove_invalid tokens)

/-- The function `Tokenize` (lines 18-28). -/
def Tokenize (filename : List Char) (options : Options) : Except Fault Tokens :=
  ValidateTokens (TokenizeByBrackets filename options [])

/-! ## Observations on token sequences -/

/-- The concatenation, in order, of the values of a token sequence. -/
def concat_values : Tokens → List Char
  | [] => []
  | t :: rest => t.content ++ concat_values rest

/-- The number of `Bracket` tokens of a sequence. -/
def count_brackets : Tokens → Nat
  | [] => 0
  | t :: rest => (if t.type = TokenType.Bracket then 1 else 0) + count_brackets rest

/-- Every `Bracket` token of the sequence has `enclosed = true`, and every other token has
`enclosed = true` exactly when an odd number of `Bracket` tokens precede it. -/
def enclosed_by_parity (tokens : Tokens) : Prop :=
  ∀ (i : Nat) (t : Token), tokens[i]? = some t →
    (t.type = TokenType.Bracket → t.enclosed = true) ∧
    (t.type ≠ TokenType.Bracket →
      (t.enclosed = true ↔ count_brackets (tokens.take i) % 2 = 1))

/-- The string `d w1 d w2 ... d wn`: every word preceded by the character `d`. -/
def join_words (d : Char) : List (List Char) → List Char
  | [] => []
  | w :: rest => d :: (w ++ join_words d rest)

/-- The tokens `TokenizeByDelimiters` builds for `join_words d words`. -/
def word_tokens (d : Char) (enclosed : Bool) : List (List Char) → Tokens
  | [] => []
  | w :: rest =>
    ⟨TokenType.Delimiter, [d], enclosed⟩ :: ⟨TokenType.Unknown, w, enclosed⟩
      :: word_tokens d enclosed rest

/-- The token `t` after `t.type = TokenType::Invalid`. -/
def invalidate (t : Token) : Token :=
  { t with type := TokenType.Invalid }

/-- The string literal `s` as a `string_t`. -/
def str (s : String) : List Char := s.toList

/-- The options whose delimiter set is the string literal `s`. -/
def delimiters (s : String) : Options := ⟨s.toList⟩

/-- The right bracket paired with the left bracket `c` (lines 60-61). -/
def paired_bracket (c : Char) : Char :=
  brackets_right.getD (brackets_left.indexOf c) char_zero
/-- No two `Unknown` tokens are adjacent in the sequence. -/
def no_adjacent_unknown : Tokens → Prop
  | a :: b :: rest =>
    ¬ (a.type = TokenType.Unknown ∧ b.type = TokenType.Unknown) ∧ no_adjacent_unknown (b :: rest)
  | _ => True

/-- The number of `Delimiter` tokens of a sequence. -/
def count_delimiters (tokens : Tokens) : Nat :=
  tokens.countP (fun t => t.type == TokenType.Delimiter)

/-- The number of characters of a run that belong to the delimiter set. -/
def count_delimiter_chars (view : List Char) (options : Options) : Nat :=
  view.countP (fun c => options.allowed_delimiters.contains c)

/-- The `Bracket` tokens of a sequence, in order. -/
def bracket_tokens (tokens : Tokens) : Tokens :=
  tokens.filter (fun t => t.type == TokenType.Bracket)

/-- The tokens of a sequence of `Bracket` tokens alternate: the 1st, 3rd, ... hold a
left-bracket character and each 2nd, 4th, ... holds the right bracket paired with the opener
just before it. -/
def brackets_alternate : Tokens → Prop
  | [] => True
  | [a] => ∃ c ∈ brackets_left, a.content = [c]
  | a :: b :: rest =>
    (∃ c ∈ brackets_left, a.content = [c] ∧ b.content = [paired_bracket c]) ∧
      brackets_alternate rest

/-- The run `r` either returns a value satisfying `P` or stops at a dereference of
`tokens.end()`; it neither reads the front of an empty string nor runs out of budget. -/
def ends_well {α : Type} (P : α → Prop) (r : Except Fault α) : Prop :=
  match r with
  | .ok a => P a
  | .error e => e = Fault.EndDeref

/-- The sequence has `size` tokens and every token has a non-empty value. -/
def sized_nonempty (size : Nat) (tokens : Tokens) : Prop :=
  tokens.length = size ∧ ∀ t ∈ tokens, t.content ≠ []

/-- The kind of the token at position `k`, if there is one. -/
def kind_at (tokens : Tokens) (k : Nat) : Option TokenType :=
  (tokens[k]?).map (fun t => t.type)

/-- There is a token at position `k` and it is valid. -/
def valid_at (tokens : Tokens) (k : Nat) : Prop :=
  ∃ type, kind_at tokens k = some type ∧ type ≠ TokenType.Invalid

/-- Every token strictly between the positions `j` and `i` is `Invalid`. -/
def invalid_between (tokens : Tokens) (j i : Nat) : Prop :=
  ∀ k, j < k → k < i → kind_at tokens k = some TokenType.Invalid

/-- The concatenation of the values of the valid tokens: what `ValidateTokens` returns once the
`Invalid` tokens are erased. -/
def concat_valid (tokens : Tokens) : List Char :=
  concat_values (remove_invalid tokens)
/-- The invariant of the scan of `ValidateTokens` on an input whose first token is never
merged away: the sequence keeps its size, every value is non-empty, the values of the valid
tokens concatenate to the input, and the first token is valid. -/
def scan_invariant (input : List Char) (size : Nat) (tokens : Tokens) : Prop :=
  tokens.length = size ∧ (∀ t ∈ tokens, t.content ≠ []) ∧ concat_valid tokens = input ∧
    valid_at tokens 0

deriving instance DecidableEq for Except

/-! ## Segmenters: reconstruction and enclosure -/

theorem find_if_lt (p : Char → Bool) (view : List Char) (k : Nat)
    (h : find_if p view = some k) : k < view.length := by
  induction view generalizing k with
  | nil => simp [find_if] at h
  | cons c rest ih =>
    unfold find_if at h
    split at h
    · cases h; simp
    · cases hr : find_if p rest with
      | none => simp [hr] at h
      | some j =>
        simp [hr] at h
        have := ih j hr
        subst h
        simp
        omega

theorem substr_split (view : List Char) (k : Nat) :
    substr view 0 k ++ (substr view k 1 ++ remove_front view (k + 1)) = view := by
  simp only [substr, remove_front, List.drop_zero]
  rw [← List.drop_drop, List.take_append_drop, List.take_append_drop]

theorem concat_values_append (xs ys : Tokens) :
    concat_values (xs ++ ys) = concat_values xs ++ concat_values ys := by
  induction xs with
  | nil => rfl
  | cons t rest ih => simp [concat_values, ih]

theorem TokenizeByDelimiters_concat (options : Options) (enclosed : Bool) :
    ∀ (n : Nat) (view : List Char) (tokens : Tokens), view.length = n →
      concat_values (TokenizeByDelimiters view options enclosed tokens)
        = concat_values tokens ++ view := by
  intro n
  induction n using Nat.strong_induction_on with
  | _ n ih =>
    intro view tokens hlen
    rw [TokenizeByDelimiters]
    split
    · next hv => simp [hv]
    · next hv =>
      cases hpos : find_first_of view options.allowed_delimiters with
      | none => simp [pos_gt_zero, substr_to, concat_values_append, concat_values]
      | some p =>
        have hp : p < view.length := find_if_lt _ _ _ hpos
        have hrec := ih ((remove_front view (p + 1)).length)
          (by simp [remove_front]; omega) (remove_front view (p + 1))
        simp only []
        rw [hrec _ rfl]
        by_cases hz : 0 < p
        · simp [pos_gt_zero, hz, substr_to, concat_values_append, concat_values]
          exact substr_split view p
        · have hp0 : p = 0 := by omega
          subst hp0
          simp [pos_gt_zero, concat_values_append, concat_values]
          have := substr_split view 0
          simpa [substr] using this

theorem TokenizeByBracketsLoop_concat (options : Options) :
    ∀ (n : Nat) (view : List Char) (is_bracket_open : Bool) (matching_bracket : Char)
      (tokens : Tokens), view.length = n →
      concat_values (TokenizeByBracketsLoop view options is_bracket_open matching_bracket tokens)
        = concat_values tokens ++ view := by
  intro n
  induction n using Nat.strong_induction_on with
  | _ n ih =>
    intro view is_open matching tokens hlen
    rw [TokenizeByBracketsLoop]
    split
    · next hv => simp [hv]
    · next hv =>
      generalize hpos : (if (!is_open) = true then find_first_of view brackets_left
        else find view matching) = pos
      cases pos with
      | none =>
        simp [pos_gt_zero, substr_to, TokenizeByDelimiters_concat options is_open _ view _ rfl]
      | some p =>
        have hp : p < view.length := by
          cases is_open
          · exact find_if_lt _ _ _ (by simpa using hpos)
          · exact find_if_lt _ _ _ (by simpa using hpos)
        have hrec := ih ((remove_front view (p + 1)).length)
          (by simp [remove_front]; omega) (remove_front view (p + 1))
        simp only []
        rw [hrec _ _ _ rfl]
        by_cases hz : 0 < p
        · simp [pos_gt_zero, hz, substr_to, concat_values_append, concat_values,
            TokenizeByDelimiters_concat options is_open _ (substr view 0 p) _ rfl]
          exact substr_split view p
        · have hp0 : p = 0 := by omega
          subst hp0
          simp [pos_gt_zero, concat_values_append, concat_values]
          have := substr_split view 0
          simpa [substr] using this

theorem count_brackets_append (xs ys : Tokens) :
    count_brackets (xs ++ ys) = count_brackets xs + count_brackets ys := by
  induction xs with
  | nil => simp [count_brackets]
  | cons t rest ih => simp [count_brackets, ih]; omega

theorem enclosed_by_parity_push (tokens : Tokens) (t : Token)
    (h : enclosed_by_parity tokens)
    (hb : t.type = TokenType.Bracket → t.enclosed = true)
    (hn : t.type ≠ TokenType.Bracket →
      (t.enclosed = true ↔ count_brackets tokens % 2 = 1)) :
    enclosed_by_parity (tokens ++ [t]) := by
  intro i u hu
  by_cases hi : i < tokens.length
  · rw [List.getElem?_append_left hi] at hu
    rw [List.take_append_of_le_length (Nat.le_of_lt hi)]
    exact h i u hu
  · rw [List.getElem?_append_right (Nat.le_of_not_lt hi)] at hu
    have hi0 : i - tokens.length = 0 := by
      by_contra hne
      have : (([t] : List Token))[i - tokens.length]? = none := by
        apply List.getElem?_eq_none
        simp; omega
      rw [this] at hu
      cases hu
    rw [hi0] at hu
    simp at hu
    subst hu
    have hie : i = tokens.length := by omega
    subst hie
    simp
    exact ⟨hb, hn⟩

theorem TokenizeByDelimiters_nil (options : Options) (enclosed : Bool) (tokens : Tokens) :
    TokenizeByDelimiters [] options enclosed tokens = tokens := by
  rw [TokenizeByDelimiters]; simp

theorem TokenizeByDelimiters_none (view : List Char) (options : Options) (enclosed : Bool)
    (tokens : Tokens) (hv : view ≠ [])
    (hpos : find_first_of view options.allowed_delimiters = none) :
    TokenizeByDelimiters view options enclosed tokens
      = tokens ++ [⟨TokenType.Unknown, view, enclosed⟩] := by
  rw [TokenizeByDelimiters]
  simp [hv, hpos, pos_gt_zero, substr_to]

theorem TokenizeByDelimiters_zero (view : List Char) (options : Options) (enclosed : Bool)
    (tokens : Tokens)
    (hpos : find_first_of view options.allowed_delimiters = some 0) :
    TokenizeByDelimiters view options enclosed tokens
      = TokenizeByDelimiters (remove_front view 1) options enclosed
          (tokens ++ [⟨TokenType.Delimiter, substr view 0 1, enclosed⟩]) := by
  have hv : view ≠ [] := by
    intro h; subst h; simp [find_first_of, find_if] at hpos
  rw [TokenizeByDelimiters]
  simp [hv, hpos, pos_gt_zero]

theorem TokenizeByDelimiters_succ (view : List Char) (options : Options) (enclosed : Bool)
    (tokens : Tokens) (p : Nat)
    (hpos : find_first_of view options.allowed_delimiters = some (p + 1)) :
    TokenizeByDelimiters view options enclosed tokens
      = TokenizeByDelimiters (remove_front view (p + 2)) options enclosed
          (tokens ++ [⟨TokenType.Unknown, substr view 0 (p + 1), enclosed⟩,
            ⟨TokenType.Delimiter, substr view (p + 1) 1, enclosed⟩]) := by
  have hv : view ≠ [] := by
    intro h; subst h; simp [find_first_of, find_if] at hpos
  rw [TokenizeByDelimiters]
  simp [hv, hpos, pos_gt_zero, substr_to]

theorem TokenizeByDelimiters_parity (options : Options) (enclosed : Bool) :
    ∀ (n : Nat) (view : List Char) (tokens : Tokens), view.length = n →
      enclosed_by_parity tokens →
      (enclosed = true ↔ count_brackets tokens % 2 = 1) →
      enclosed_by_parity (TokenizeByDelimiters view options enclosed tokens) ∧
      count_brackets (TokenizeByDelimiters view options enclosed tokens)
        = count_brackets tokens := by
  intro n
  induction n using Nat.strong_induction_on with
  | _ n ih =>
    intro view tokens hlen hP hE
    have hpush : ∀ (ts : Tokens) (t : Token), enclosed_by_parity ts →
        (enclosed = true ↔ count_brackets ts % 2 = 1) → t.type ≠ TokenType.Bracket →
        t.enclosed = enclosed →
        enclosed_by_parity (ts ++ [t]) ∧
          (enclosed = true ↔ count_brackets (ts ++ [t]) % 2 = 1) ∧
          count_brackets (ts ++ [t]) = count_brackets ts := by
      intro ts t hts hce hty hen
      have hc : count_brackets (ts ++ [t]) = count_brackets ts := by
        simp [count_brackets_append, count_brackets, hty]
      refine ⟨enclosed_by_parity_push _ _ hts (fun h => absurd h hty) ?_, ?_, hc⟩
      · intro _; rw [hen]; exact hce
      · rw [hc]; exact hce
    by_cases hv : view = []
    · subst hv; rw [TokenizeByDelimiters_nil]; exact ⟨hP, rfl⟩
    · cases hpos : find_first_of view options.allowed_delimiters with
      | none =>
        rw [TokenizeByDelimiters_none _ _ _ _ hv hpos]
        have := hpush tokens ⟨TokenType.Unknown, view, enclosed⟩ hP hE (by simp) rfl
        exact ⟨this.1, this.2.2⟩
      | some p =>
        have hp : p < view.length := find_if_lt _ _ _ hpos
        cases p with
        | zero =>
          rw [TokenizeByDelimiters_zero _ _ _ _ hpos]
          have h1 := hpush tokens ⟨TokenType.Delimiter, substr view 0 1, enclosed⟩ hP hE
            (by simp) rfl
          have h2 := ih (remove_front view 1).length (by simp [remove_front]; omega)
            (remove_front view 1) _ rfl h1.1 h1.2.1
          exact ⟨h2.1, h2.2.trans h1.2.2⟩
        | succ q =>
          rw [TokenizeByDelimiters_succ _ _ _ _ _ hpos]
          have h0 := hpush tokens ⟨TokenType.Unknown, substr view 0 (q + 1), enclosed⟩ hP hE
            (by simp) rfl
          have h1 := hpush _ ⟨TokenType.Delimiter, substr view (q + 1) 1, enclosed⟩ h0.1 h0.2.1
            (by simp) rfl
          rw [List.append_assoc] at h1
          have h2 := ih (remove_front view (q + 2)).length (by simp [remove_front]; omega)
            (remove_front view (q + 2)) _ rfl h1.1 h1.2.1
          exact ⟨h2.1, h2.2.trans (h1.2.2.trans h0.2.2)⟩

theorem TokenizeByBracketsLoop_parity (options : Options) :
    ∀ (n : Nat) (view : List Char) (is_bracket_open : Bool) (matching_bracket : Char)
      (tokens : Tokens), view.length = n →
      enclosed_by_parity tokens →
      (is_bracket_open = true ↔ count_brackets tokens % 2 = 1) →
      enclosed_by_parity
        (TokenizeByBracketsLoop view options is_bracket_open matching_bracket tokens) := by
  intro n
  induction n using Nat.strong_induction_on with
  | _ n ih =>
    intro view is_open matching tokens hlen hP hE
    rw [TokenizeByBracketsLoop]
    split
    · next hv => exact hP
    · next hv =>
      generalize hpos : (if (!is_open) = true then find_first_of view brackets_left
        else find view matching) = pos
      have hD := TokenizeByDelimiters_parity options is_open _ (substr_to view pos) tokens rfl
        hP hE
      cases pos with
      | none =>
        simp only [pos_gt_zero, if_true]
        exact hD.1
      | some p =>
        have hp : p < view.length := by
          cases is_open
          · exact find_if_lt _ _ _ (by simpa using hpos)
          · exact find_if_lt _ _ _ (by simpa using hpos)
        simp only []
        apply ih ((remove_front view (p + 1)).length)
          (by simp [remove_front]; omega) (remove_front view (p + 1)) _ _ _ rfl
        · apply enclosed_by_parity_push
          · split
            · exact hD.1
            · exact hP
          · intro _; rfl
          · intro h; exact absurd rfl h
        · rw [count_brackets_append]
          have hc : count_brackets (if pos_gt_zero (some p) = true then
              TokenizeByDelimiters (substr_to view (some p)) options is_open tokens
              else tokens) = count_brackets tokens := by
            split
            · exact hD.2
            · rfl
          rw [hc]
          simp only [count_brackets, if_true]
          cases is_open <;> simp at hE ⊢ <;> omega

theorem TokenizeByBrackets_parity (filename : List Char) (options : Options) :
    enclosed_by_parity (TokenizeByBrackets filename options []) := by
  apply TokenizeByBracketsLoop_parity options _ filename false char_zero [] rfl
  · intro i t h; simp at h
  · simp [count_brackets]

theorem find_if_some (p : Char → Bool) (view : List Char) (k : Nat)
    (h : find_if p view = some k) : ∃ c, substr view k 1 = [c] ∧ p c = true := by
  induction view generalizing k with
  | nil => simp [find_if] at h
  | cons c rest ih =>
    unfold find_if at h
    split at h
    · next hc => cases h; exact ⟨c, by simp [substr], hc⟩
    · cases hr : find_if p rest with
      | none => simp [hr] at h
      | some j =>
        simp [hr] at h
        subst h
        obtain ⟨d, hd, hpd⟩ := ih j hr
        exact ⟨d, by simpa [substr] using hd, hpd⟩

theorem find_first_of_some (view chars : List Char) (k : Nat)
    (h : find_first_of view chars = some k) : ∃ c, substr view k 1 = [c] ∧ c ∈ chars := by
  obtain ⟨c, hc, hp⟩ := find_if_some _ view k h
  exact ⟨c, hc, by simpa using hp⟩

theorem getElem?_of_substr (view : List Char) (k : Nat) (c : Char)
    (h : substr view k 1 = [c]) : view[k]? = some c := by
  have h0 : (substr view k 1)[0]? = some c := by rw [h]; rfl
  simpa [substr, List.getElem?_take, List.getElem?_drop] using h0

/-- The two `at` calls of lines 60-61 stay in range: the position found by `find_first_of` lies
inside the view and the index of the opener lies inside `brackets_right`. -/
theorem bracket_lookup_in_range (view : List Char) (p : Nat)
    (h : find_first_of view brackets_left = some p) :
    p < view.length ∧
      brackets_left.indexOf (view.getD p char_zero) < brackets_right.length := by
  obtain ⟨c, hc, hmem⟩ := find_first_of_some view brackets_left p h
  have hget := getElem?_of_substr view p c hc
  refine ⟨find_if_lt _ _ _ h, ?_⟩
  have hD : view.getD p char_zero = c := by simp [List.getD, hget]
  rw [hD]
  have := List.indexOf_lt_length.mpr hmem
  simpa [brackets_left, brackets_right] using this

theorem TokenizeByDelimiters_forall (Q : Token → Prop) (options : Options) (enclosed : Bool)
    (hU : ∀ w, w ≠ [] → Q ⟨TokenType.Unknown, w, enclosed⟩)
    (hD : ∀ c, c ∈ options.allowed_delimiters → Q ⟨TokenType.Delimiter, [c], enclosed⟩) :
    ∀ (n : Nat) (view : List Char) (tokens : Tokens), view.length = n →
      (∀ t ∈ tokens, Q t) → ∀ t ∈ TokenizeByDelimiters view options enclosed tokens, Q t := by
  intro n
  induction n using Nat.strong_induction_on with
  | _ n ih =>
    intro view tokens hlen hQ
    by_cases hv : view = []
    · subst hv; rw [TokenizeByDelimiters_nil]; exact hQ
    · cases hpos : find_first_of view options.allowed_delimiters with
      | none =>
        rw [TokenizeByDelimiters_none _ _ _ _ hv hpos]
        intro t ht
        rcases List.mem_append.mp ht with h | h
        · exact hQ t h
        · simp at h; subst h; exact hU view hv
      | some p =>
        have hp : p < view.length := find_if_lt _ _ _ hpos
        obtain ⟨c, hc, hcd⟩ := find_first_of_some _ _ _ hpos
        cases p with
        | zero =>
          rw [TokenizeByDelimiters_zero _ _ _ _ hpos]
          apply ih (remove_front view 1).length (by simp [remove_front]; omega) _ _ rfl
          intro t ht
          rcases List.mem_append.mp ht with h | h
          · exact hQ t h
          · simp at h; subst h; rw [hc]; exact hD c hcd
        | succ q =>
          rw [TokenizeByDelimiters_succ _ _ _ _ _ hpos]
          apply ih (remove_front view (q + 2)).length (by simp [remove_front]; omega) _ _ rfl
          intro t ht
          rcases List.mem_append.mp ht with h | h
          · exact hQ t h
          · simp at h
            rcases h with h | h
            · subst h
              apply hU
              intro h0
              have hl : (substr view 0 (q + 1)).length = min (q + 1) view.length := by
                simp [substr]
              rw [h0] at hl
              simp only [List.length_nil] at hl
              omega
            · subst h; rw [hc]; exact hD c hcd

theorem TokenizeByBracketsLoop_forall (Q : Token → Prop) (options : Options)
    (hU : ∀ w e, w ≠ [] → Q ⟨TokenType.Unknown, w, e⟩)
    (hD : ∀ c e, c ∈ options.allowed_delimiters → Q ⟨TokenType.Delimiter, [c], e⟩)
    (hB : ∀ c, Q ⟨TokenType.Bracket, [c], true⟩) :
    ∀ (n : Nat) (view : List Char) (is_bracket_open : Bool) (matching_bracket : Char)
      (tokens : Tokens), view.length = n → (∀ t ∈ tokens, Q t) →
      ∀ t ∈ TokenizeByBracketsLoop view options is_bracket_open matching_bracket tokens,
        Q t := by
  intro n
  induction n using Nat.strong_induction_on with
  | _ n ih =>
    intro view is_open matching tokens hlen hQ
    rw [TokenizeByBracketsLoop]
    split
    · next hv => exact hQ
    · next hv =>
      generalize hpos : (if (!is_open) = true then find_first_of view brackets_left
        else find view matching) = pos
      have hDl : ∀ t ∈ (if pos_gt_zero pos = true then
          TokenizeByDelimiters (substr_to view pos) options is_open tokens else tokens),
          Q t := by
        split
        · exact TokenizeByDelimiters_forall Q options is_open (fun w => hU w is_open)
            (fun c => hD c is_open) _ _ tokens rfl hQ
        · exact hQ
      cases pos with
      | none => exact hDl
      | some p =>
        have hsome : ∃ c, substr view p 1 = [c] := by
          cases is_open
          · obtain ⟨c, hc, _⟩ := find_if_some _ view p (by simpa using hpos)
            exact ⟨c, hc⟩
          · obtain ⟨c, hc, _⟩ := find_if_some _ view p (by simpa using hpos)
            exact ⟨c, hc⟩
        have hp : p < view.length := by
          cases is_open
          · exact find_if_lt _ _ _ (by simpa using hpos)
          · exact find_if_lt _ _ _ (by simpa using hpos)
        obtain ⟨c, hc⟩ := hsome
        simp only []
        apply ih ((remove_front view (p + 1)).length)
          (by simp [remove_front]; omega) (remove_front view (p + 1)) _ _ _ rfl
        intro t ht
        rcases List.mem_append.mp ht with h | h
        · exact hDl t h
        · simp at h; subst h; rw [hc]; exact hB c

/-! ## Validator: generic invariants -/

theorem bind_eq_ok {α β : Type} (x : Except Fault α) (f : α → Except Fault β) (b : β) :
    (x >>= f) = .ok b ↔ ∃ a, x = .ok a ∧ f a = .ok b := by
  cases x with
  | error e => simp [bind, Except.bind]
  | ok a => simp [bind, Except.bind]

theorem absorb_loop_preserves (P : Tokens → Prop)
    (happ : ∀ ts i j ts', P ts → append_token_to ts i j = .ok ts' → P ts') :
    ∀ (fuel : Nat) (tokens : Tokens) (next_token prev_token : Nat) (delimiter : Char)
      (out : Tokens), P tokens →
      absorb_loop fuel tokens next_token prev_token delimiter = .ok out → P out := by
  intro fuel
  induction fuel with
  | zero => intro tokens nt pt d out _ h; simp [absorb_loop] at h
  | succ fuel ih =>
    intro tokens nt pt d out hP h
    unfold absorb_loop at h
    split at h
    · rw [bind_eq_ok] at h
      obtain ⟨ts1, h1, h⟩ := h
      have hP1 := happ _ _ _ _ hP h1
      simp only [] at h
      split at h
      · rw [bind_eq_ok] at h
        obtain ⟨c, _, h⟩ := h
        split at h
        · rw [bind_eq_ok] at h
          obtain ⟨ts2, h2, h⟩ := h
          exact ih _ _ _ _ _ (happ _ _ _ _ hP1 h2) h
        · exact ih _ _ _ _ _ hP1 h
      · exact ih _ _ _ _ _ hP1 h
    · cases h; exact hP

theorem adjacent_delimiters_preserves (P : Tokens → Prop)
    (happ : ∀ ts i j ts', P ts → append_token_to ts i j = .ok ts' → P ts')
    (hset : ∀ ts i ts', P ts → set_type ts i TokenType.Unknown = .ok ts' → P ts')
    (tokens : Tokens) (token prev_token next_token : Nat) (delimiter : Char) (out : Tokens)
    (hP : P tokens)
    (h : adjacent_delimiters tokens token prev_token next_token delimiter = .ok out) :
    P out := by
  unfold adjacent_delimiters at h
  split at h
  · rw [bind_eq_ok] at h
    obtain ⟨c, _, h⟩ := h
    split at h
    · split at h
      · exact happ _ _ _ _ hP h
      · cases h; exact hP
    · cases h; exact hP
  · split at h
    · rw [bind_eq_ok] at h
      obtain ⟨c, _, h⟩ := h
      rw [bind_eq_ok] at h
      obtain ⟨c2, _, h⟩ := h
      split at h
      · exact hset _ _ _ hP h
      · cases h; exact hP
    · cases h; exact hP

theorem special_cases_preserves (P : Tokens → Prop)
    (happ : ∀ ts i j ts', P ts → append_token_to ts i j = .ok ts' → P ts')
    (tokens : Tokens) (token prev_token next_token : Nat) (delimiter : Char) (out : Tokens)
    (hP : P tokens)
    (h : special_cases tokens token prev_token next_token delimiter = .ok out) :
    P out := by
  unfold special_cases at h
  split at h
  · split at h
    · split at h
      · split at h
        · rw [bind_eq_ok] at h
          obtain ⟨ts1, h1, h⟩ := h
          exact happ _ _ _ _ (happ _ _ _ _ hP h1) h
        · cases h; exact hP
      · cases h
    · cases h; exact hP
  · cases h; exact hP

theorem validate_token_preserves (P : Tokens → Prop)
    (happ : ∀ ts i j ts', P ts → append_token_to ts i j = .ok ts' → P ts')
    (hset : ∀ ts i ts', P ts → set_type ts i TokenType.Unknown = .ok ts' → P ts')
    (tokens : Tokens) (token : Nat) (out : Tokens) (hP : P tokens)
    (h : validate_token tokens token = .ok out) : P out := by
  unfold validate_token at h
  split at h
  · cases h
  · split at h
    · cases h; exact hP
    · rw [bind_eq_ok] at h
      obtain ⟨d, _, h⟩ := h
      simp only [] at h
      have hrest : ∀ out, (adjacent_delimiters tokens token (FindPreviousToken tokens token)
          (FindNextToken tokens token) d >>= fun ts =>
            special_cases ts token (FindPreviousToken tokens token)
              (FindNextToken tokens token) d) = .ok out → P out := by
        intro out h
        rw [bind_eq_ok] at h
        obtain ⟨ts1, h1, h⟩ := h
        exact special_cases_preserves P happ _ _ _ _ _ _
          (adjacent_delimiters_preserves P happ hset _ _ _ _ _ _ hP h1) h
      split at h
      · split at h
        · rw [bind_eq_ok] at h
          obtain ⟨ts1, h1, h⟩ := h
          exact absorb_loop_preserves P happ _ _ _ _ _ _ (happ _ _ _ _ hP h1) h
        · split at h
          · rw [bind_eq_ok] at h
            obtain ⟨ts1, h1, h⟩ := h
            exact happ _ _ _ _ (happ _ _ _ _ hP h1) h
          · exact hrest _ h
      · exact hrest _ h

theorem validate_scan_preserves (P : Tokens → Prop)
    (happ : ∀ ts i j ts', P ts → append_token_to ts i j = .ok ts' → P ts')
    (hset : ∀ ts i ts', P ts → set_type ts i TokenType.Unknown = .ok ts' → P ts') :
    ∀ (fuel : Nat) (tokens : Tokens) (token : Nat) (out : Tokens), P tokens →
      validate_scan fuel tokens token = .ok out → P out := by
  intro fuel
  induction fuel with
  | zero => intro tokens token out _ h; simp [validate_scan] at h
  | succ fuel ih =>
    intro tokens token out hP h
    unfold validate_scan at h
    split at h
    · rw [bind_eq_ok] at h
      obtain ⟨ts1, h1, h⟩ := h
      exact ih _ _ _ (validate_token_preserves P happ hset _ _ _ hP h1) h
    · cases h; exact hP

theorem set_type_forall (Q : Token → Prop) (tokens : Tokens) (it : Nat) (type : TokenType)
    (out : Tokens) (hQ : ∀ t ∈ tokens, Q t)
    (hty : ∀ t, Q t → Q { t with type := type })
    (h : set_type tokens it type = .ok out) : ∀ t ∈ out, Q t := by
  unfold set_type at h
  split at h
  · cases h
  · next t ht =>
    cases h
    intro u hu
    rcases List.mem_or_eq_of_mem_set hu with h | h
    · exact hQ u h
    · subst h; exact hty t (hQ t (List.getElem?_mem ht))

theorem append_token_to_forall (Q : Token → Prop) (tokens : Tokens) (token append_to : Nat)
    (out : Tokens) (hQ : ∀ t ∈ tokens, Q t)
    (hty : ∀ t, Q t → Q { t with type := TokenType.Invalid })
    (hcontent : ∀ a t, Q a → Q t → Q { a with content := a.content ++ t.content })
    (h : append_token_to tokens token append_to = .ok out) : ∀ t ∈ out, Q t := by
  unfold append_token_to at h
  split at h
  · next t a ht ha =>
    apply set_type_forall Q _ _ _ _ _ hty h
    intro u hu
    rcases List.mem_or_eq_of_mem_set hu with h | h
    · exact hQ u h
    · subst h
      exact hcontent a t (hQ a (List.getElem?_mem ha)) (hQ t (List.getElem?_mem ht))
  · cases h

theorem validate_scan_forall (Q : Token → Prop)
    (hinv : ∀ t, Q t → Q { t with type := TokenType.Invalid })
    (hunk : ∀ t, Q t → Q { t with type := TokenType.Unknown })
    (hcontent : ∀ a t, Q a → Q t → Q { a with content := a.content ++ t.content })
    (fuel : Nat) (tokens : Tokens) (token : Nat) (out : Tokens) (hQ : ∀ t ∈ tokens, Q t)
    (h : validate_scan fuel tokens token = .ok out) : ∀ t ∈ out, Q t :=
  validate_scan_preserves (fun ts => ∀ t ∈ ts, Q t)
    (fun ts i j ts' hP happ => append_token_to_forall Q ts i j ts' hP hinv hcontent happ)
    (fun ts i ts' hP hset => set_type_forall Q ts i _ ts' hP hunk hset)
    fuel tokens token out hQ h

theorem ValidateTokens_eq_ok (tokens out : Tokens) (h : ValidateTokens tokens = .ok out) :
    ∃ scanned, validate_scan (tokens.length + 1) tokens 0 = .ok scanned ∧
      out = remove_invalid scanned := by
  unfold ValidateTokens at h
  rw [bind_eq_ok] at h
  obtain ⟨scanned, h1, h2⟩ := h
  cases h2
  exact ⟨scanned, h1, rfl⟩

/-! ## Symbolic evaluation of the segmenters -/

theorem find_if_none (p : Char → Bool) (view : List Char) (h : ∀ c ∈ view, p c = false) :
    find_if p view = none := by
  induction view with
  | nil => rfl
  | cons c rest ih =>
    have hc := h c (List.mem_cons_self _ _)
    have hr := ih (fun x hx => h x (List.mem_cons_of_mem _ hx))
    simp [find_if, hc, hr]

theorem find_if_append (p : Char → Bool) (word : List Char) (c : Char) (rest : List Char)
    (h : ∀ x ∈ word, p x = false) (hc : p c = true) :
    find_if p (word ++ c :: rest) = some word.length := by
  induction word with
  | nil => simp [find_if, hc]
  | cons x xs ih =>
    have hx := h x (List.mem_cons_self _ _)
    have hr := ih (fun y hy => h y (List.mem_cons_of_mem _ hy))
    simp [find_if, hx, hr]

theorem TokenizeByBracketsLoop_no_bracket (view : List Char) (options : Options)
    (matching_bracket : Char) (tokens : Tokens) (h : ∀ c ∈ view, c ∉ brackets_left) :
    TokenizeByBracketsLoop view options false matching_bracket tokens
      = TokenizeByDelimiters view options false tokens := by
  rw [TokenizeByBracketsLoop]
  by_cases hv : view = []
  · subst hv; simp [TokenizeByDelimiters_nil]
  · have hnone : find_first_of view brackets_left = none :=
      find_if_none _ view (fun c hc => by simpa using h c hc)
    simp [hv, hnone, pos_gt_zero, substr_to]

theorem substr_word (word rest : List Char) : substr (word ++ rest) 0 word.length = word := by
  simp [substr]

theorem substr_after_word (word : List Char) (c : Char) (rest : List Char) :
    substr (word ++ c :: rest) word.length 1 = [c] := by
  simp [substr]

theorem remove_front_word (word : List Char) (c : Char) (rest : List Char) :
    remove_front (word ++ c :: rest) (word.length + 1) = rest := by
  simp [remove_front, ← List.drop_drop]

theorem TokenizeByDelimiters_word (word : List Char) (options : Options) (enclosed : Bool)
    (tokens : Tokens) (hw : word ≠ [])
    (hnd : ∀ c ∈ word, c ∉ options.allowed_delimiters) :
    TokenizeByDelimiters word options enclosed tokens
      = tokens ++ [⟨TokenType.Unknown, word, enclosed⟩] :=
  TokenizeByDelimiters_none _ _ _ _ hw
    (find_if_none _ word (fun c hc => by simpa using hnd c hc))

theorem TokenizeByDelimiters_delimiter (d : Char) (rest : List Char) (options : Options)
    (enclosed : Bool) (tokens : Tokens) (hd : d ∈ options.allowed_delimiters) :
    TokenizeByDelimiters (d :: rest) options enclosed tokens
      = TokenizeByDelimiters rest options enclosed
          (tokens ++ [⟨TokenType.Delimiter, [d], enclosed⟩]) := by
  rw [TokenizeByDelimiters_zero _ _ _ _ (by simp [find_first_of, find_if, hd])]
  simp [remove_front, substr]

theorem TokenizeByDelimiters_word_delimiter (word : List Char) (d : Char) (rest : List Char)
    (options : Options) (enclosed : Bool) (tokens : Tokens) (hw : word ≠ [])
    (hnd : ∀ c ∈ word, c ∉ options.allowed_delimiters)
    (hd : d ∈ options.allowed_delimiters) :
    TokenizeByDelimiters (word ++ d :: rest) options enclosed tokens
      = TokenizeByDelimiters rest options enclosed
          (tokens ++ [⟨TokenType.Unknown, word, enclosed⟩,
            ⟨TokenType.Delimiter, [d], enclosed⟩]) := by
  have hfind : find_first_of (word ++ d :: rest) options.allowed_delimiters
      = some word.length :=
    find_if_append _ word d rest (fun c hc => by simpa using hnd c hc) (by simpa using hd)
  obtain ⟨x, xs, rfl⟩ := List.exists_cons_of_ne_nil hw
  have hlen : (x :: xs).length = xs.length + 1 := rfl
  rw [hlen] at hfind
  rw [TokenizeByDelimiters_succ _ _ _ _ _ hfind, ← hlen, substr_word, substr_after_word]
  have := remove_front_word (x :: xs) d rest
  rw [hlen] at this
  rw [this]

theorem IsNumericChar_not_bracket (c : Char) (h : IsNumericChar c = true) :
    c ∉ brackets_left := by
  intro hc
  simp only [brackets_left, List.mem_cons, List.mem_singleton, List.not_mem_nil,
    or_false] at hc
  rcases hc with rfl | rfl | rfl | rfl | rfl | rfl | rfl <;> revert h <;> decide

theorem IsNumericChar_not_hyphen (c : Char) (h : IsNumericChar c = true) : c ≠ '-' := by
  rintro rfl
  revert h
  decide

theorem TokenizeByDelimiters_words (d : Char) (options : Options) (enclosed : Bool)
    (hd : d ∈ options.allowed_delimiters) :
    ∀ (rest : List (List Char)) (word : List Char) (tokens : Tokens), word ≠ [] →
      (∀ c ∈ word, c ∉ options.allowed_delimiters) →
      (∀ w ∈ rest, w ≠ [] ∧ ∀ c ∈ w, c ∉ options.allowed_delimiters) →
      TokenizeByDelimiters (word ++ join_words d rest) options enclosed tokens
        = tokens ++ ⟨TokenType.Unknown, word, enclosed⟩ :: word_tokens d enclosed rest := by
  intro rest
  induction rest with
  | nil =>
    intro word tokens hw hnd _
    simp only [join_words, List.append_nil, word_tokens]
    exact TokenizeByDelimiters_word word options enclosed tokens hw hnd
  | cons w rest ih =>
    intro word tokens hw hnd hrest
    have hw2 := hrest w (List.mem_cons_self _ _)
    simp only [join_words, word_tokens]
    rw [TokenizeByDelimiters_word_delimiter word d _ options enclosed tokens hw hnd hd,
      ih w _ hw2.1 hw2.2 (fun v hv => hrest v (List.mem_cons_of_mem _ hv))]
    simp

/-! ## Symbolic evaluation of the validator -/

theorem getElem?_length_append (inv : Tokens) (t : Token) (rest : Tokens) :
    (inv ++ t :: rest)[inv.length]? = some t := by
  induction inv with
  | nil => simp
  | cons x xs ih => simpa using ih

theorem getElem?_middle (hd : Token) (inv : Tokens) (t : Token) (rest : Tokens) :
    (hd :: (inv ++ t :: rest))[inv.length + 1]? = some t := by
  rw [List.getElem?_cons_succ]
  exact getElem?_length_append inv t rest

theorem set_middle (hd : Token) (inv : Tokens) (t u : Token) (rest : Tokens) :
    (hd :: (inv ++ t :: rest)).set (inv.length + 1) u = hd :: (inv ++ u :: rest) := by
  simp

theorem drop_middle (hd : Token) (inv : Tokens) (t : Token) (rest : Tokens) :
    (hd :: (inv ++ t :: rest)).drop (inv.length + 1 + 1) = rest := by
  simp [← List.drop_drop]

theorem append_token_to_middle (hd : Token) (inv : Tokens) (t : Token) (rest : Tokens) :
    append_token_to (hd :: (inv ++ t :: rest)) (inv.length + 1) 0
      = .ok ({ hd with content := hd.content ++ t.content } :: (inv ++ invalidate t :: rest)) := by
  unfold append_token_to set_type
  rw [getElem?_middle]
  simp only [List.getElem?_cons_zero, List.set_cons_zero]
  rw [getElem?_middle]
  simp only []
  rw [set_middle]
  rfl

theorem FindNextToken_middle (hd : Token) (inv : Tokens) (t : Token) (rest : Tokens) :
    FindNextToken (hd :: (inv ++ t :: rest)) (inv.length + 1)
      = match find_valid rest with
        | some k => inv.length + 1 + 1 + k
        | none => (hd :: (inv ++ t :: rest)).length := by
  unfold FindNextToken
  rw [drop_middle]

theorem is_unknown_token_middle (hd : Token) (inv : Tokens) (t : Token) (rest : Tokens) :
    is_unknown_token (hd :: (inv ++ t :: rest)) (inv.length + 1)
      = (t.type == TokenType.Unknown) := by
  unfold is_unknown_token
  rw [getElem?_middle]

theorem is_delimiter_token_middle (hd : Token) (inv : Tokens) (t : Token) (rest : Tokens) :
    is_delimiter_token (hd :: (inv ++ t :: rest)) (inv.length + 1)
      = (t.type == TokenType.Delimiter) := by
  unfold is_delimiter_token
  rw [getElem?_middle]

theorem front_at_middle (hd : Token) (inv : Tokens) (t : Token) (rest : Tokens) :
    front_at (hd :: (inv ++ t :: rest)) (inv.length + 1) = front t.content := by
  unfold front_at
  rw [getElem?_middle]

theorem is_unknown_token_end (tokens : Tokens) :
    is_unknown_token tokens tokens.length = false := by
  simp [is_unknown_token]

theorem is_delimiter_token_end (tokens : Tokens) :
    is_delimiter_token tokens tokens.length = false := by
  simp [is_delimiter_token]

theorem absorb_loop_end (fuel : Nat) (tokens : Tokens) (prev_token : Nat) (delimiter : Char) :
    absorb_loop (fuel + 1) tokens tokens.length prev_token delimiter = .ok tokens := by
  simp [absorb_loop, is_unknown_token_end]

theorem absorb_loop_step_unknown (fuel : Nat) (ts ts1 : Tokens) (nt pt : Nat) (d : Char)
    (hU : is_unknown_token ts nt = true)
    (h1 : append_token_to ts nt pt = .ok ts1)
    (hD : is_delimiter_token ts1 (FindNextToken ts1 nt) = false) :
    absorb_loop (fuel + 1) ts nt pt d = absorb_loop fuel ts1 (FindNextToken ts1 nt) pt d := by
  rw [absorb_loop]
  simp [hU, h1, hD, bind, Except.bind]

theorem absorb_loop_step_delimiter (fuel : Nat) (ts ts1 ts2 : Tokens) (nt pt : Nat) (d : Char)
    (hU : is_unknown_token ts nt = true)
    (h1 : append_token_to ts nt pt = .ok ts1)
    (hD : is_delimiter_token ts1 (FindNextToken ts1 nt) = true)
    (hF : front_at ts1 (FindNextToken ts1 nt) = .ok d)
    (h2 : append_token_to ts1 (FindNextToken ts1 nt) pt = .ok ts2) :
    absorb_loop (fuel + 1) ts nt pt d
      = absorb_loop fuel ts2 (FindNextToken ts2 (FindNextToken ts1 nt)) pt d := by
  rw [absorb_loop]
  simp [hU, h1, hD, hF, h2, bind, Except.bind]

theorem FindNextToken_middle_valid (hd : Token) (inv : Tokens) (t r : Token) (rest : Tokens)
    (hr : is_valid r = true) :
    FindNextToken (hd :: (inv ++ t :: r :: rest)) (inv.length + 1)
      = (inv ++ [t]).length + 1 := by
  rw [FindNextToken_middle]
  simp [find_valid, hr]

theorem FindNextToken_middle_last (hd : Token) (inv : Tokens) (t : Token) :
    FindNextToken (hd :: (inv ++ [t])) (inv.length + 1) = (hd :: (inv ++ [t])).length := by
  rw [FindNextToken_middle]
  simp [find_valid]

theorem append_singleton_cons (inv : Tokens) (t : Token) (rest : Tokens) :
    inv ++ t :: rest = (inv ++ [t]) ++ rest := by
  simp

theorem absorb_loop_words (d : Char) (enclosed : Bool) :
    ∀ (rest : List (List Char)) (fuel : Nat) (hd : Token) (inv : Tokens) (w : List Char),
      rest.length + 2 ≤ fuel →
      absorb_loop fuel
          (hd :: (inv ++ ⟨TokenType.Unknown, w, enclosed⟩ :: word_tokens d enclosed rest))
          (inv.length + 1) 0 d
        = .ok ({ hd with content := hd.content ++ (w ++ join_words d rest) } ::
            (inv ++ (⟨TokenType.Unknown, w, enclosed⟩ :: word_tokens d enclosed rest).map
              invalidate)) := by
  intro rest
  induction rest with
  | nil =>
    intro fuel hd inv w hfuel
    obtain ⟨f, rfl⟩ : ∃ f, fuel = f + 2 := ⟨fuel - 2, by simp at hfuel; omega⟩
    simp only [word_tokens]
    rw [absorb_loop_step_unknown (f + 1) _ _ _ _ _ (by rw [is_unknown_token_middle]; rfl)
      (append_token_to_middle _ _ _ _)
      (by rw [FindNextToken_middle_last]; exact is_delimiter_token_end _)]
    rw [FindNextToken_middle_last, absorb_loop_end]
    simp [join_words]
  | cons w2 rest ih =>
    intro fuel hd inv w hfuel
    obtain ⟨f, rfl⟩ : ∃ f, fuel = f + 1 := ⟨fuel - 1, by simp at hfuel; omega⟩
    simp only [word_tokens]
    have hn1 := FindNextToken_middle_valid { hd with content := hd.content ++ w } inv
      (invalidate ⟨TokenType.Unknown, w, enclosed⟩) ⟨TokenType.Delimiter, [d], enclosed⟩
      (⟨TokenType.Unknown, w2, enclosed⟩ :: word_tokens d enclosed rest) rfl
    have hn2 := FindNextToken_middle_valid
      { hd with content := hd.content ++ w ++ [d] }
      (inv ++ [invalidate ⟨TokenType.Unknown, w, enclosed⟩])
      (invalidate ⟨TokenType.Delimiter, [d], enclosed⟩) ⟨TokenType.Unknown, w2, enclosed⟩
      (word_tokens d enclosed rest) rfl
    have h2 := append_token_to_middle { hd with content := hd.content ++ w }
      (inv ++ [invalidate ⟨TokenType.Unknown, w, enclosed⟩])
      ⟨TokenType.Delimiter, [d], enclosed⟩
      (⟨TokenType.Unknown, w2, enclosed⟩ :: word_tokens d enclosed rest)
    rw [absorb_loop_step_delimiter f _ _ _ _ _ _ (by rw [is_unknown_token_middle]; rfl)
      (append_token_to_middle _ _ _ _)
      (by rw [hn1, append_singleton_cons, is_delimiter_token_middle]; rfl)
      (by rw [hn1, append_singleton_cons, front_at_middle]; rfl)
      (by rw [hn1, append_singleton_cons]; exact h2)]
    rw [hn1, hn2, append_singleton_cons _ (invalidate ⟨TokenType.Delimiter, [d], enclosed⟩)]
    rw [ih f _ _ w2 (by simp at hfuel; omega)]
    simp [join_words]

theorem validate_token_skip (tokens : Tokens) (token : Nat) (t : Token)
    (ht : tokens[token]? = some t) (hty : t.type ≠ TokenType.Delimiter) :
    validate_token tokens token = .ok tokens := by
  unfold validate_token
  rw [ht]
  simp [hty]

theorem validate_scan_skip :
    ∀ (fuel : Nat) (tokens : Tokens) (token : Nat),
      (∀ j t, token ≤ j → tokens[j]? = some t → t.type ≠ TokenType.Delimiter) →
      token ≤ tokens.length → tokens.length - token < fuel →
      validate_scan fuel tokens token = .ok tokens := by
  intro fuel
  induction fuel with
  | zero => intro tokens token _ _ h; omega
  | succ fuel ih =>
    intro tokens token hall hle hfuel
    unfold validate_scan
    by_cases hend : token = tokens.length
    · simp [hend]
    · have hlt : token < tokens.length := by omega
      have hget : tokens[token]? = some tokens[token] := List.getElem?_eq_getElem hlt
      rw [if_pos hend, validate_token_skip tokens token _ hget (hall _ _ (Nat.le_refl _) hget)]
      simp only [bind, Except.bind]
      exact ih tokens (token + 1) (fun j t hj => hall j t (by omega)) (by omega) (by omega)

theorem word_tokens_length (d : Char) (enclosed : Bool) (words : List (List Char)) :
    (word_tokens d enclosed words).length = 2 * words.length := by
  induction words with
  | nil => rfl
  | cons w rest ih => simp [word_tokens, ih]; omega

theorem remove_invalid_map_invalidate (tokens : Tokens) :
    remove_invalid (tokens.map invalidate) = [] := by
  induction tokens with
  | nil => rfl
  | cons t rest ih =>
    simp only [remove_invalid] at ih
    simp [remove_invalid, invalidate, ih]

theorem not_delimiter_of_mem_map_invalidate (tokens : Tokens) (t : Token)
    (h : t ∈ tokens.map invalidate) : t.type ≠ TokenType.Delimiter := by
  simp only [List.mem_map] at h
  obtain ⟨u, _, rfl⟩ := h
  simp [invalidate]

/-- The single-character guard absorbs a whole chain `c d w1 d w2 ... d wn`. -/
theorem ValidateTokens_chain (c d : Char) (enclosed : Bool) (w : List Char)
    (rest : List (List Char)) (hc : c ≠ '-') (hds : d ≠ ' ') (hdu : d ≠ '_') :
    ValidateTokens (⟨TokenType.Unknown, [c], enclosed⟩ :: word_tokens d enclosed (w :: rest))
      = .ok [⟨TokenType.Unknown, c :: join_words d (w :: rest), enclosed⟩] := by
  have hlen : (⟨TokenType.Unknown, [c], enclosed⟩ :: word_tokens d enclosed (w :: rest)).length
      = 2 * rest.length + 3 := by
    simp [word_tokens_length]; omega
  have habs : ∀ fuel, rest.length + 2 ≤ fuel →
      absorb_loop fuel
        (⟨TokenType.Unknown, [c, d], enclosed⟩ ::
          invalidate ⟨TokenType.Delimiter, [d], enclosed⟩ ::
            ⟨TokenType.Unknown, w, enclosed⟩ :: word_tokens d enclosed rest) 2 0 d
      = .ok (⟨TokenType.Unknown, c :: join_words d (w :: rest), enclosed⟩ ::
          invalidate ⟨TokenType.Delimiter, [d], enclosed⟩ ::
            invalidate ⟨TokenType.Unknown, w, enclosed⟩ ::
              (word_tokens d enclosed rest).map invalidate) := by
    intro fuel hfuel
    have := absorb_loop_words d enclosed rest fuel ⟨TokenType.Unknown, [c, d], enclosed⟩
      [invalidate ⟨TokenType.Delimiter, [d], enclosed⟩] w hfuel
    simpa [join_words] using this
  have htok : validate_token
      (⟨TokenType.Unknown, [c], enclosed⟩ :: word_tokens d enclosed (w :: rest)) 1
      = .ok (⟨TokenType.Unknown, c :: join_words d (w :: rest), enclosed⟩ ::
          (word_tokens d enclosed (w :: rest)).map invalidate) := by
    have happ := append_token_to_middle ⟨TokenType.Unknown, [c], enclosed⟩ []
      ⟨TokenType.Delimiter, [d], enclosed⟩
      (⟨TokenType.Unknown, w, enclosed⟩ :: word_tokens d enclosed rest)
    simp only [List.length_nil, List.nil_append, Nat.zero_add] at happ
    have hnext : FindNextToken
        (⟨TokenType.Unknown, [c], enclosed⟩ :: word_tokens d enclosed (w :: rest)) 1 = 2 := by
      simp [FindNextToken, word_tokens, find_valid, is_valid]
    unfold validate_token
    simp only [word_tokens, List.getElem?_cons_succ, List.getElem?_cons_zero, front, bind,
      Except.bind, FindPreviousToken, is_valid, is_single_character_token]
    simp only [word_tokens] at hnext hlen
    rw [hnext]
    simp [hc, hds, hdu, happ, hlen]
    exact habs _ (by simp [word_tokens_length]; omega)
  unfold ValidateTokens
  rw [hlen]
  rw [validate_scan, if_pos (by rw [hlen]; omega),
    validate_token_skip _ 0 ⟨TokenType.Unknown, [c], enclosed⟩ rfl (by simp)]
  simp only [bind, Except.bind]
  rw [validate_scan, if_pos (by rw [hlen]; omega), htok]
  simp only [bind, Except.bind]
  rw [validate_scan_skip]
  · simp only [remove_invalid, List.filter_cons]
    have := remove_invalid_map_invalidate (word_tokens d enclosed (w :: rest))
    simp only [remove_invalid] at this
    simp [this]
  · intro j t hj hget
    obtain ⟨k, rfl⟩ : ∃ k, j = k + 1 := ⟨j - 1, by omega⟩
    rw [List.getElem?_cons_succ] at hget
    exact not_delimiter_of_mem_map_invalidate _ t (List.getElem?_mem hget)
  · simp [word_tokens_length]; omega
  · simp [word_tokens_length]; omega

/-! ## Claims C1 to C10 -/

/-- C1 at the failing input `"-A"` with `-` as delimiter: the validator merges into
`tokens.end()`, so no token sequence is returned whose values concatenate to the input. -/
theorem Tokenize_leading_weak_delimiter :
    Tokenize (str "-A") (delimiters "-") = .error Fault.EndDeref ∧
    ¬ ∃ tokens, Tokenize (str "-A") (delimiters "-") = .ok tokens ∧
      concat_values tokens = str "-A" := by
  have h : Tokenize (str "-A") (delimiters "-") = .error Fault.EndDeref := by decide!
  refine ⟨h, ?_⟩
  rintro ⟨tokens, hok, _⟩
  rw [h] at hok
  cases hok

/-- C2: concatenating, in order, the values of the tokens produced by `TokenizeByBrackets`
(the sequence before `ValidateTokens` runs) gives back the input string, for every input string
and every delimiter set. -/
theorem TokenizeByBrackets_reconstructs (filename : List Char) (options : Options) :
    concat_values (TokenizeByBrackets filename options []) = filename := by
  unfold TokenizeByBrackets
  rw [TokenizeByBracketsLoop_concat options _ filename false char_zero [] rfl]
  rfl

/-- C3 at the failing input `"-A"` with `-` as delimiter: the first token is the weak delimiter
`-`, it has no previous token, so `FindPreviousToken` returns `tokens.end()`; the next token `A`
is a single-character token, and the merge of line 131 appends onto `tokens.end()`. -/
theorem merge_target_past_the_end :
    TokenizeByBrackets (str "-A") (delimiters "-") []
      = [⟨TokenType.Delimiter, str "-", false⟩, ⟨TokenType.Unknown, str "A", false⟩] ∧
    FindPreviousToken
      [⟨TokenType.Delimiter, str "-", false⟩, ⟨TokenType.Unknown, str "A", false⟩] 0 = 2 ∧
    is_single_character_token
      [⟨TokenType.Delimiter, str "-", false⟩, ⟨TokenType.Unknown, str "A", false⟩] 2 = false ∧
    is_single_character_token
      [⟨TokenType.Delimiter, str "-", false⟩, ⟨TokenType.Unknown, str "A", false⟩]
      (FindNextToken
        [⟨TokenType.Delimiter, str "-", false⟩, ⟨TokenType.Unknown, str "A", false⟩] 0)
      = true ∧
    append_token_to
      [⟨TokenType.Delimiter, str "-", false⟩, ⟨TokenType.Unknown, str "A", false⟩] 0 2
      = .error Fault.EndDeref ∧
    validate_token
      [⟨TokenType.Delimiter, str "-", false⟩, ⟨TokenType.Unknown, str "A", false⟩] 0
      = .error Fault.EndDeref := by
  decide!

/-- C4: the sequence returned by `Tokenize` contains no token of kind `Invalid` and no token of
kind `Identifier`, for every input string and every delimiter set. -/
theorem Tokenize_no_invalid_no_identifier (filename : List Char) (options : Options)
    (tokens : Tokens) (h : Tokenize filename options = .ok tokens) :
    ∀ t ∈ tokens, t.type ≠ TokenType.Invalid ∧ t.type ≠ TokenType.Identifier := by
  obtain ⟨scanned, hscan, hout⟩ := ValidateTokens_eq_ok _ _ h
  have hseg : ∀ t ∈ TokenizeByBrackets filename options [],
      t.type ≠ TokenType.Identifier :=
    TokenizeByBracketsLoop_forall (fun t => t.type ≠ TokenType.Identifier) options
      (fun _ _ _ => by simp) (fun _ _ _ => by simp) (fun _ => by simp)
      _ filename false char_zero [] rfl (by simp)
  have hscanned : ∀ t ∈ scanned, t.type ≠ TokenType.Identifier :=
    validate_scan_forall (fun t => t.type ≠ TokenType.Identifier)
      (fun _ _ => by simp) (fun _ _ => by simp) (fun _ _ ha _ => ha) _ _ _ _ hseg hscan
  intro t ht
  subst hout
  simp only [remove_invalid, List.mem_filter] at ht
  exact ⟨by simpa using ht.2, hscanned t ht.1⟩

/-- Witness for C4: the input `"A-1"` with `-` as delimiter. -/
theorem Tokenize_no_invalid_no_identifier_witness :
    Tokenize (str "A-1") (delimiters "-") = .ok [⟨TokenType.Unknown, str "A-1", false⟩] ∧
    ∀ t ∈ [(⟨TokenType.Unknown, str "A-1", false⟩ : Token)],
      t.type ≠ TokenType.Invalid ∧ t.type ≠ TokenType.Identifier :=
  ⟨by decide!, Tokenize_no_invalid_no_identifier (str "A-1") (delimiters "-") _ (by decide!)⟩

/-- C5 at two failing inputs: for `"[-A]"` with `-` as delimiter the returned sequence holds a
`Bracket` token whose value is `"[-A"`, and for `" -A"` with space and `-` as delimiters it
holds a `Delimiter` token whose value is `" -A"`. -/
theorem merge_into_bracket_or_delimiter :
    Tokenize (str "[-A]") (delimiters "-") = .ok
      [⟨TokenType.Bracket, str "[-A", true⟩, ⟨TokenType.Bracket, str "]", true⟩] ∧
    Tokenize (str " -A") (delimiters " -") = .ok
      [⟨TokenType.Delimiter, str " -A", false⟩] := by
  decide!

/-- C6: in the sequence built by `TokenizeByBrackets` every `Bracket` token has `enclosed = true`
and every other token has `enclosed = true` exactly when an odd number of `Bracket` tokens
precede it; and for the input `"[Group] Show - 01 (1080p)"` with space and hyphen as delimiters
`Tokenize` returns `[`, `]`, `(`, `)` as `Bracket` tokens with `enclosed = true`, `Group` with
`enclosed = true`, and `Show`, `-`, `01` with `enclosed = false`. -/
theorem bracket_pairing (filename : List Char) (options : Options) :
    enclosed_by_parity (TokenizeByBrackets filename options []) ∧
    Tokenize (str "[Group] Show - 01 (1080p)") (delimiters " -") = .ok
      [⟨TokenType.Bracket, str "[", true⟩, ⟨TokenType.Unknown, str "Group", true⟩,
       ⟨TokenType.Bracket, str "]", true⟩, ⟨TokenType.Delimiter, str " ", false⟩,
       ⟨TokenType.Unknown, str "Show", false⟩, ⟨TokenType.Delimiter, str " ", false⟩,
       ⟨TokenType.Unknown, str "-", false⟩, ⟨TokenType.Delimiter, str " ", false⟩,
       ⟨TokenType.Unknown, str "01", false⟩, ⟨TokenType.Delimiter, str " ", false⟩,
       ⟨TokenType.Bracket, str "(", true⟩, ⟨TokenType.Unknown, str "1080p", true⟩,
       ⟨TokenType.Bracket, str ")", true⟩] :=
  ⟨TokenizeByBrackets_parity filename options, by decide!⟩

/-- C7 (amended): single-character absorption. For every character `c` that is not a hyphen,
not a bracket and not a configured delimiter, every configured delimiter `d` other than space
and underscore that is not an opening bracket, and every list of `n >= 1` non-empty words
containing no bracket and no configured delimiter character, `Tokenize` of the string
`c d w1 d w2 ... d wn` returns exactly one token, of kind `Unknown`, `enclosed = false`, whose
value is the whole input. -/
theorem single_character_absorption (c d : Char) (words : List (List Char))
    (options : Options)
    (hc : c ≠ '-') (hcb : c ∉ brackets_left ∧ c ∉ brackets_right)
    (hcd : c ∉ options.allowed_delimiters)
    (hd : d ∈ options.allowed_delimiters) (hds : d ≠ ' ') (hdu : d ≠ '_')
    (hdb : d ∉ brackets_left)
    (hn : 1 ≤ words.length)
    (hw : ∀ w ∈ words, w ≠ [] ∧
      ∀ x ∈ w, x ∉ brackets_left ∧ x ∉ brackets_right ∧ x ∉ options.allowed_delimiters) :
    Tokenize (c :: join_words d words) options
      = .ok [⟨TokenType.Unknown, c :: join_words d words, false⟩] := by
  obtain ⟨w, rest, rfl⟩ : ∃ w rest, words = w :: rest := by
    cases words with
    | nil => simp at hn
    | cons w rest => exact ⟨w, rest, rfl⟩
  have hjoin : ∀ (ws : List (List Char)),
      (∀ v ∈ ws, v ≠ [] ∧
        ∀ x ∈ v, x ∉ brackets_left ∧ x ∉ brackets_right ∧ x ∉ options.allowed_delimiters) →
      ∀ x ∈ join_words d ws, x ∉ brackets_left := by
    intro ws
    induction ws with
    | nil => intro _ x hx; simp [join_words] at hx
    | cons v vs ih =>
      intro hvs x hx
      simp only [join_words, List.mem_cons, List.mem_append] at hx
      rcases hx with h | h | h
      · subst h; exact hdb
      · exact ((hvs v (List.mem_cons_self _ _)).2 x h).1
      · exact ih (fun u hu => hvs u (List.mem_cons_of_mem _ hu)) x h
  have hseg : TokenizeByBrackets (c :: join_words d (w :: rest)) options []
      = ⟨TokenType.Unknown, [c], false⟩ :: word_tokens d false (w :: rest) := by
    unfold TokenizeByBrackets
    rw [TokenizeByBracketsLoop_no_bracket]
    · have hw1 := hw w (List.mem_cons_self _ _)
      have h1 := TokenizeByDelimiters_word_delimiter [c] d (w ++ join_words d rest) options
        false [] (by simp) (by simpa using hcd) hd
      simp only [List.singleton_append, List.nil_append] at h1
      simp only [join_words]
      rw [h1, TokenizeByDelimiters_words d options false hd rest w _ hw1.1
        (fun x hx => (hw1.2 x hx).2.2)
        (fun v hv => ⟨(hw v (List.mem_cons_of_mem _ hv)).1,
          fun x hx => ((hw v (List.mem_cons_of_mem _ hv)).2 x hx).2.2⟩)]
      simp [word_tokens]
    · intro x hx
      rcases List.mem_cons.mp hx with h | h
      · subst h; exact hcb.1
      · exact hjoin _ hw x h
  unfold Tokenize
  rw [hseg]
  exact ValidateTokens_chain c d false w rest hc hds hdu

/-- Witness for C7: the input `"A-1"` with `-` as delimiter gives the single token `"A-1"`. -/
theorem single_character_absorption_witness :
    Tokenize ('A' :: join_words '-' [str "1"]) (delimiters "-")
      = .ok [⟨TokenType.Unknown, 'A' :: join_words '-' [str "1"], false⟩] :=
  single_character_absorption 'A' '-' [str "1"] (delimiters "-") (by decide)
    ⟨by decide, by decide⟩ (by decide) (by decide) (by decide) (by decide) (by decide)
    (by decide) (by decide)

/-- Counterexample to C7 as stated: with the opening bracket `[` configured as the delimiter
`d`, all hypotheses of the claim hold for `c = 'A'` and the single word `"1"`, yet `Tokenize` of
`"A[1"` returns three tokens, because brackets are segmented before delimiters. -/
theorem single_character_absorption_counterexample :
    ('A' ≠ '-' ∧ ('A' ∉ brackets_left ∧ 'A' ∉ brackets_right) ∧
      'A' ∉ (delimiters "[").allowed_delimiters ∧
      '[' ∈ (delimiters "[").allowed_delimiters ∧ '[' ≠ ' ' ∧ '[' ≠ '_' ∧
      1 ≤ [str "1"].length ∧
      ∀ w ∈ [str "1"], w ≠ [] ∧
        ∀ x ∈ w, x ∉ brackets_left ∧ x ∉ brackets_right ∧
          x ∉ (delimiters "[").allowed_delimiters) ∧
    Tokenize ('A' :: join_words '[' [str "1"]) (delimiters "[") = .ok
      [⟨TokenType.Unknown, str "A", false⟩, ⟨TokenType.Bracket, str "[", true⟩,
       ⟨TokenType.Unknown, str "1", true⟩] ∧
    Tokenize ('A' :: join_words '[' [str "1"]) (delimiters "[")
      ≠ .ok [⟨TokenType.Unknown, 'A' :: join_words '[' [str "1"], false⟩] := by
  decide!

/-- C8: numeric merge. For non-empty strings `a` and `b` made only of decimal digits and `d` in
{`&`, `+`} a configured delimiter (digits not being delimiters), `Tokenize` of `a d b` returns
exactly one token, of kind `Unknown`, whose value is `a d b`. -/
theorem numeric_merge (a b : List Char) (d : Char) (options : Options)
    (ha : a ≠ []) (hb : b ≠ [])
    (had : ∀ c ∈ a, IsNumericChar c = true) (hbd : ∀ c ∈ b, IsNumericChar c = true)
    (hd : d = '&' ∨ d = '+') (hdd : d ∈ options.allowed_delimiters)
    (hdig : ∀ c, IsNumericChar c = true → c ∉ options.allowed_delimiters) :
    Tokenize (a ++ d :: b) options = .ok [⟨TokenType.Unknown, a ++ d :: b, false⟩] := by
  have hdb : d ∉ brackets_left := by
    rcases hd with h | h <;> subst h <;> decide
  have hseg : TokenizeByBrackets (a ++ d :: b) options []
      = [⟨TokenType.Unknown, a, false⟩, ⟨TokenType.Delimiter, [d], false⟩,
         ⟨TokenType.Unknown, b, false⟩] := by
    unfold TokenizeByBrackets
    rw [TokenizeByBracketsLoop_no_bracket]
    · rw [TokenizeByDelimiters_word_delimiter a d b _ _ _ ha (fun c hc => hdig c (had c hc)) hdd,
        TokenizeByDelimiters_word b _ _ _ hb (fun c hc => hdig c (hbd c hc))]
      rfl
    · intro c hc
      simp only [List.mem_append, List.mem_cons] at hc
      rcases hc with h | h | h
      · exact IsNumericChar_not_bracket c (had c h)
      · subst h; exact hdb
      · exact IsNumericChar_not_bracket c (hbd c h)
  have hA : IsNumericString a = true := by
    simp [IsNumericString, ha]; exact had
  have hB : IsNumericString b = true := by
    simp [IsNumericString, hb]; exact hbd
  unfold Tokenize
  rw [hseg]
  have hweak : d ≠ ' ' ∧ d ≠ '_' := by
    rcases hd with h | h <;> subst h <;> decide
  rcases a with _ | ⟨x, _ | ⟨y, a⟩⟩
  · exact absurd rfl ha
  · have hx : x ≠ '-' := IsNumericChar_not_hyphen x (had x (by simp))
    simp [ValidateTokens, validate_scan, validate_token, front, FindPreviousToken,
      FindNextToken, find_valid, is_valid, is_single_character_token, adjacent_delimiters,
      special_cases, is_unknown_token, is_delimiter_token, front_at, set_type, bind,
      Except.bind, remove_invalid, append_token_to, absorb_loop, hweak, hx]
  · rcases b with _ | ⟨z, _ | ⟨w, b⟩⟩
    · exact absurd rfl hb
    · have hz : z ≠ '-' := IsNumericChar_not_hyphen z (hbd z (by simp))
      simp [ValidateTokens, validate_scan, validate_token, front, FindPreviousToken,
        FindNextToken, find_valid, is_valid, is_single_character_token, adjacent_delimiters,
        special_cases, is_unknown_token, is_delimiter_token, front_at, set_type, bind,
        Except.bind, remove_invalid, append_token_to, absorb_loop, hweak, hz]
    · simp [ValidateTokens, validate_scan, validate_token, front, FindPreviousToken,
        FindNextToken, find_valid, is_valid, is_single_character_token, adjacent_delimiters,
        special_cases, is_unknown_token, is_delimiter_token, front_at, set_type, bind,
        Except.bind, remove_invalid, append_token_to, absorb_loop, hweak, hA, hB, hd]

/-- Witness for C8: the input `"01+02"` with `+` as delimiter. -/
theorem numeric_merge_witness :
    Tokenize (str "01" ++ '+' :: str "02") (delimiters "+")
      = .ok [⟨TokenType.Unknown, str "01" ++ '+' :: str "02", false⟩] :=
  numeric_merge (str "01") (str "02") '+' (delimiters "+") (by decide) (by decide)
    (by decide) (by decide) (Or.inr rfl) (by decide)
    (by
      intro c hc hmem
      have hplus : c = '+' := by simpa [delimiters] using hmem
      subst hplus
      revert hc
      decide)

/-- C9: stray symmetric delimiter. For every `s` in {space, underscore} and every character `d`
different from `s` that is not a bracket, with both `s` and `d` configured as delimiters,
`Tokenize` of the three-character string `s d s` returns exactly three tokens: `Delimiter s`,
`Unknown d`, `Delimiter s`. -/
theorem stray_symmetric_delimiter (s d : Char) (options : Options)
    (hs : s = ' ' ∨ s = '_') (hds : d ≠ s)
    (hdb : d ∉ brackets_left ∧ d ∉ brackets_right)
    (hsd : s ∈ options.allowed_delimiters) (hdd : d ∈ options.allowed_delimiters) :
    Tokenize [s, d, s] options = .ok
      [⟨TokenType.Delimiter, [s], false⟩, ⟨TokenType.Unknown, [d], false⟩,
       ⟨TokenType.Delimiter, [s], false⟩] := by
  have hsb : s ∉ brackets_left := by
    rcases hs with h | h <;> subst h <;> decide
  have hseg : TokenizeByBrackets [s, d, s] options []
      = [⟨TokenType.Delimiter, [s], false⟩, ⟨TokenType.Delimiter, [d], false⟩,
         ⟨TokenType.Delimiter, [s], false⟩] := by
    unfold TokenizeByBrackets
    rw [TokenizeByBracketsLoop_no_bracket _ _ _ _ (by simp [hsb, hdb.1])]
    rw [TokenizeByDelimiters_zero _ _ _ _ (by simp [find_first_of, find_if, hsd])]
    simp only [remove_front, substr, List.drop, List.take, List.nil_append]
    rw [TokenizeByDelimiters_zero _ _ _ _ (by simp [find_first_of, find_if, hdd])]
    simp only [remove_front, substr, List.drop, List.take, List.nil_append]
    rw [TokenizeByDelimiters_zero _ _ _ _ (by simp [find_first_of, find_if, hsd])]
    simp only [remove_front, substr, List.drop, List.take, List.nil_append]
    rw [TokenizeByDelimiters_nil]
    rfl
  unfold Tokenize
  rw [hseg]
  have hds2 : ¬ s = d := fun h => hds h.symm
  rcases hs with h | h <;> subst h <;>
    by_cases hweak : d ≠ ' ' ∧ d ≠ '_' <;>
    simp [ValidateTokens, validate_scan, validate_token, front, FindPreviousToken,
      FindNextToken, find_valid, is_valid, is_single_character_token, adjacent_delimiters,
      special_cases, is_unknown_token, is_delimiter_token, front_at, set_type, bind,
      Except.bind, remove_invalid, hds2, hweak]

/-- Witness for C9: the input `"_&_"` with `_` and `&` as delimiters. -/
theorem stray_symmetric_delimiter_witness :
    Tokenize ['_', '&', '_'] (delimiters "_&") = .ok
      [⟨TokenType.Delimiter, ['_'], false⟩, ⟨TokenType.Unknown, ['&'], false⟩,
       ⟨TokenType.Delimiter, ['_'], false⟩] :=
  stray_symmetric_delimiter '_' '&' (delimiters "_&") (Or.inr rfl) (by decide)
    ⟨by decide, by decide⟩ (by decide) (by decide)

/-- C10: `Tokenize` of the empty string returns the empty token sequence, for every delimiter
set. -/
theorem Tokenize_empty (options : Options) : Tokenize [] options = .ok [] := by
  simp [Tokenize, TokenizeByBrackets, TokenizeByBracketsLoop, ValidateTokens, validate_scan,
    remove_invalid]
  rfl

/-! ## Segmenters: the output as a function of the view -/

theorem TokenizeByDelimiters_acc (options : Options) (enclosed : Bool) :
    ∀ (n : Nat) (view : List Char) (tokens : Tokens), view.length = n →
      TokenizeByDelimiters view options enclosed tokens
        = tokens ++ TokenizeByDelimiters view options enclosed [] := by
  intro n
  induction n using Nat.strong_induction_on with
  | _ n ih =>
    intro view tokens hlen
    by_cases hv : view = []
    · subst hv; simp [TokenizeByDelimiters_nil]
    · cases hpos : find_first_of view options.allowed_delimiters with
      | none => simp [TokenizeByDelimiters_none _ _ _ _ hv hpos]
      | some p =>
        have hp : p < view.length := find_if_lt _ _ _ hpos
        cases p with
        | zero =>
          rw [TokenizeByDelimiters_zero _ _ _ _ hpos, TokenizeByDelimiters_zero _ _ _ [] hpos]
          have hlt : (remove_front view 1).length < n := by simp [remove_front]; omega
          rw [ih _ hlt _ _ rfl, ih _ hlt _ ([] ++ _) rfl]
          simp
        | succ q =>
          rw [TokenizeByDelimiters_succ _ _ _ _ _ hpos,
            TokenizeByDelimiters_succ _ _ _ [] _ hpos]
          have hlt : (remove_front view (q + 2)).length < n := by simp [remove_front]; omega
          rw [ih _ hlt _ _ rfl, ih _ hlt _ ([] ++ _) rfl]
          simp

theorem TokenizeByDelimiters_append (view : List Char) (options : Options) (enclosed : Bool)
    (tokens : Tokens) :
    TokenizeByDelimiters view options enclosed tokens
      = tokens ++ TokenizeByDelimiters view options enclosed [] :=
  TokenizeByDelimiters_acc options enclosed _ view tokens rfl

theorem substr_zero_zero (view : List Char) : substr view 0 0 = [] := by
  simp [substr]

theorem TokenizeByBracketsLoop_nil (options : Options) (is_bracket_open : Bool)
    (matching_bracket : Char) (tokens : Tokens) :
    TokenizeByBracketsLoop [] options is_bracket_open matching_bracket tokens = tokens := by
  rw [TokenizeByBracketsLoop]; simp

theorem TokenizeByBracketsLoop_closed_none (view : List Char) (options : Options)
    (matching_bracket : Char) (tokens : Tokens)
    (hpos : find_first_of view brackets_left = none) :
    TokenizeByBracketsLoop view options false matching_bracket tokens
      = TokenizeByDelimiters view options false tokens := by
  by_cases hv : view = []
  · subst hv; rw [TokenizeByBracketsLoop_nil, TokenizeByDelimiters_nil]
  · rw [TokenizeByBracketsLoop]
    simp [hv, hpos, pos_gt_zero, substr_to]

theorem TokenizeByBracketsLoop_open_none (view : List Char) (options : Options)
    (matching_bracket : Char) (tokens : Tokens)
    (hpos : find view matching_bracket = none) :
    TokenizeByBracketsLoop view options true matching_bracket tokens
      = TokenizeByDelimiters view options true tokens := by
  by_cases hv : view = []
  · subst hv; rw [TokenizeByBracketsLoop_nil, TokenizeByDelimiters_nil]
  · rw [TokenizeByBracketsLoop]
    simp [hv, hpos, pos_gt_zero, substr_to]

theorem TokenizeByBracketsLoop_closed_some (view : List Char) (options : Options)
    (matching_bracket : Char) (tokens : Tokens) (p : Nat)
    (hpos : find_first_of view brackets_left = some p) :
    TokenizeByBracketsLoop view options false matching_bracket tokens
      = TokenizeByBracketsLoop (remove_front view (p + 1)) options true
          (paired_bracket (view.getD p char_zero))
          (TokenizeByDelimiters (substr view 0 p) options false tokens
            ++ [⟨TokenType.Bracket, substr view p 1, true⟩]) := by
  have hv : view ≠ [] := by
    intro h; subst h; simp [find_first_of, find_if] at hpos
  rw [TokenizeByBracketsLoop]
  cases p with
  | zero => simp [hv, hpos, pos_gt_zero, substr_zero_zero, TokenizeByDelimiters_nil,
      paired_bracket]
  | succ q => simp [hv, hpos, pos_gt_zero, substr_to, paired_bracket]

theorem TokenizeByBracketsLoop_open_some (view : List Char) (options : Options)
    (matching_bracket : Char) (tokens : Tokens) (p : Nat)
    (hpos : find view matching_bracket = some p) :
    TokenizeByBracketsLoop view options true matching_bracket tokens
      = TokenizeByBracketsLoop (remove_front view (p + 1)) options false matching_bracket
          (TokenizeByDelimiters (substr view 0 p) options true tokens
            ++ [⟨TokenType.Bracket, substr view p 1, true⟩]) := by
  have hv : view ≠ [] := by
    intro h; subst h; simp [find, find_if] at hpos
  rw [TokenizeByBracketsLoop]
  cases p with
  | zero => simp [hv, hpos, pos_gt_zero, substr_zero_zero, TokenizeByDelimiters_nil]
  | succ q => simp [hv, hpos, pos_gt_zero, substr_to]

theorem TokenizeByBracketsLoop_acc (options : Options) :
    ∀ (n : Nat) (view : List Char) (is_bracket_open : Bool) (matching_bracket : Char)
      (tokens : Tokens), view.length = n →
      TokenizeByBracketsLoop view options is_bracket_open matching_bracket tokens
        = tokens ++ TokenizeByBracketsLoop view options is_bracket_open matching_bracket [] := by
  intro n
  induction n using Nat.strong_induction_on with
  | _ n ih =>
    intro view is_open matching tokens hlen
    cases is_open with
    | false =>
      cases hpos : find_first_of view brackets_left with
      | none =>
        rw [TokenizeByBracketsLoop_closed_none _ _ _ _ hpos,
          TokenizeByBracketsLoop_closed_none _ _ _ _ hpos]
        exact TokenizeByDelimiters_append _ _ _ _
      | some p =>
        have hp : p < view.length := find_if_lt _ _ _ hpos
        have hlt : (remove_front view (p + 1)).length < n := by simp [remove_front]; omega
        rw [TokenizeByBracketsLoop_closed_some _ _ _ _ _ hpos,
          TokenizeByBracketsLoop_closed_some _ _ _ [] _ hpos,
          ih _ hlt _ _ _ _ rfl, ih _ hlt _ _ _ (_ ++ _) rfl,
          TokenizeByDelimiters_append _ _ _ tokens]
        simp
    | true =>
      cases hpos : find view matching with
      | none =>
        rw [TokenizeByBracketsLoop_open_none _ _ _ _ hpos,
          TokenizeByBracketsLoop_open_none _ _ _ _ hpos]
        exact TokenizeByDelimiters_append _ _ _ _
      | some p =>
        have hp : p < view.length := find_if_lt _ _ _ hpos
        have hlt : (remove_front view (p + 1)).length < n := by simp [remove_front]; omega
        rw [TokenizeByBracketsLoop_open_some _ _ _ _ _ hpos,
          TokenizeByBracketsLoop_open_some _ _ _ [] _ hpos,
          ih _ hlt _ _ _ _ rfl, ih _ hlt _ _ _ (_ ++ _) rfl,
          TokenizeByDelimiters_append _ _ _ tokens]
        simp

theorem TokenizeByBracketsLoop_append (view : List Char) (options : Options)
    (is_bracket_open : Bool) (matching_bracket : Char) (tokens : Tokens) :
    TokenizeByBracketsLoop view options is_bracket_open matching_bracket tokens
      = tokens ++ TokenizeByBracketsLoop view options is_bracket_open matching_bracket [] :=
  TokenizeByBracketsLoop_acc options _ view is_bracket_open matching_bracket tokens rfl
theorem count_brackets_eq_zero (tokens : Tokens)
    (h : ∀ t ∈ tokens, t.type ≠ TokenType.Bracket) : count_brackets tokens = 0 := by
  induction tokens with
  | nil => rfl
  | cons t rest ih =>
    have ht := h t (List.mem_cons_self _ _)
    have hr := ih (fun u hu => h u (List.mem_cons_of_mem _ hu))
    simp [count_brackets, ht, hr]

theorem TokenizeByDelimiters_no_bracket (view : List Char) (options : Options)
    (enclosed : Bool) :
    ∀ t ∈ TokenizeByDelimiters view options enclosed [], t.type ≠ TokenType.Bracket :=
  TokenizeByDelimiters_forall (fun t => t.type ≠ TokenType.Bracket) options enclosed
    (fun _ _ => by simp) (fun _ _ => by simp) _ view [] rfl (by simp)

theorem TokenizeByDelimiters_enclosed (view : List Char) (options : Options)
    (enclosed : Bool) :
    ∀ t ∈ TokenizeByDelimiters view options enclosed [], t.enclosed = enclosed :=
  TokenizeByDelimiters_forall (fun t => t.enclosed = enclosed) options enclosed
    (fun _ _ => rfl) (fun _ _ => rfl) _ view [] rfl (by simp)

theorem getElem?_after_word (word : List Char) (c : Char) (rest : List Char) :
    (word ++ c :: rest)[word.length]? = some c := by
  induction word with
  | nil => simp
  | cons x xs ih => simpa using ih

theorem getD_after_word (word : List Char) (c : Char) (rest : List Char) :
    (word ++ c :: rest).getD word.length char_zero = c := by
  have h := getElem?_after_word word c rest
  simp [List.getD, h]

theorem ValidateTokens_single (t : Token) (ht : t.type = TokenType.Unknown) :
    ValidateTokens [t] = .ok [t] := by
  unfold ValidateTokens
  rw [validate_scan_skip]
  · simp [bind, Except.bind, remove_invalid, ht]
  · intro j u _ hu
    cases j with
    | zero => simp at hu; subst hu; simp [ht]
    | succ k => simp at hu
  · simp
  · simp

/-- C11: for every non-empty input string that contains no left-bracket character and no
configured delimiter character (the delimiter set may be empty), `Tokenize` returns exactly one
token: kind `Unknown`, value equal to the whole input, `enclosed = false`. -/
theorem no_delimiter_single_token (filename : List Char) (options : Options)
    (hne : filename ≠ [])
    (hb : ∀ c ∈ filename, c ∉ brackets_left)
    (hd : ∀ c ∈ filename, c ∉ options.allowed_delimiters) :
    Tokenize filename options = .ok [⟨TokenType.Unknown, filename, false⟩] := by
  unfold Tokenize TokenizeByBrackets
  rw [TokenizeByBracketsLoop_no_bracket _ _ _ _ hb,
    TokenizeByDelimiters_word _ _ _ _ hne hd]
  exact ValidateTokens_single _ rfl

/-- Witness for C11: the input `"abc"` with an empty delimiter set. -/
theorem no_delimiter_single_token_witness :
    Tokenize (str "abc") (delimiters "") = .ok [⟨TokenType.Unknown, str "abc", false⟩] :=
  no_delimiter_single_token (str "abc") (delimiters "") (by decide) (by decide) (by decide)

/-- C12: unmatched opening bracket. For every input `p ++ [o] ++ r` where `p` contains no
left-bracket character, `o` is a left-bracket character and `r` does not contain the right
bracket paired with `o`, `TokenizeByBrackets` emits the tokens of `p`, then the `Bracket` token
`o`, then the tokens of `r`; there is exactly one `Bracket` token, every token produced from `r`
has `enclosed = true`, and the values of the tokens after the `Bracket` token concatenate to
`r`. -/
theorem unmatched_opening_bracket (p r : List Char) (o : Char) (options : Options)
    (hp : ∀ c ∈ p, c ∉ brackets_left) (ho : o ∈ brackets_left)
    (hr : paired_bracket o ∉ r) :
    TokenizeByBrackets (p ++ o :: r) options []
      = TokenizeByDelimiters p options false []
          ++ ⟨TokenType.Bracket, [o], true⟩ :: TokenizeByDelimiters r options true [] ∧
    count_brackets (TokenizeByBrackets (p ++ o :: r) options []) = 1 ∧
    (∀ t ∈ TokenizeByDelimiters r options true [], t.enclosed = true) ∧
    concat_values (TokenizeByDelimiters r options true []) = r := by
  have hfind : find_first_of (p ++ o :: r) brackets_left = some p.length :=
    find_if_append _ p o r (fun c hc => by simpa using hp c hc) (by simpa using ho)
  have hnone : find r (paired_bracket o) = none :=
    find_if_none _ r (fun c hc => by
      simp only [beq_eq_false_iff_ne, ne_eq]
      intro h; subst h; exact hr hc)
  have heq : TokenizeByBrackets (p ++ o :: r) options []
      = TokenizeByDelimiters p options false []
          ++ ⟨TokenType.Bracket, [o], true⟩ :: TokenizeByDelimiters r options true [] := by
    unfold TokenizeByBrackets
    rw [TokenizeByBracketsLoop_closed_some _ _ _ _ _ hfind, substr_word, substr_after_word,
      remove_front_word, getD_after_word, TokenizeByBracketsLoop_open_none _ _ _ _ hnone,
      TokenizeByDelimiters_append r]
    simp
  refine ⟨heq, ?_, TokenizeByDelimiters_enclosed r options true, ?_⟩
  · rw [heq, count_brackets_append]
    simp [count_brackets, count_brackets_eq_zero _ (TokenizeByDelimiters_no_bracket _ _ _)]
  · have := TokenizeByDelimiters_concat options true _ r [] rfl
    simpa [concat_values] using this

/-- Witness for C12: the input `"ab[cd"` with space as delimiter. -/
theorem unmatched_opening_bracket_witness :
    TokenizeByBrackets (str "ab" ++ '[' :: str "cd") (delimiters " ") []
      = TokenizeByDelimiters (str "ab") (delimiters " ") false []
          ++ ⟨TokenType.Bracket, ['['], true⟩
            :: TokenizeByDelimiters (str "cd") (delimiters " ") true [] ∧
    count_brackets (TokenizeByBrackets (str "ab" ++ '[' :: str "cd") (delimiters " ") []) = 1 ∧
    (∀ t ∈ TokenizeByDelimiters (str "cd") (delimiters " ") true [], t.enclosed = true) ∧
    concat_values (TokenizeByDelimiters (str "cd") (delimiters " ") true []) = str "cd" :=
  unmatched_opening_bracket (str "ab") (str "cd") '[' (delimiters " ") (by decide) (by decide)
    (by decide)
/-! ## Validator: a delimiter set made of one strong delimiter -/

theorem front_at_of_delimiter (s : Char) (tokens : Tokens)
    (hQ : ∀ t ∈ tokens, t.type = TokenType.Delimiter → t.content = [s]) (it : Nat)
    (h : is_delimiter_token tokens it = true) : front_at tokens it = .ok s := by
  unfold is_delimiter_token at h
  unfold front_at
  cases hget : tokens[it]? with
  | none => simp [hget] at h
  | some t =>
    simp only [hget, beq_iff_eq] at h
    simp [hQ t (List.getElem?_mem hget) h, front]

theorem adjacent_delimiters_same (s : Char) (tokens : Tokens)
    (hQ : ∀ t ∈ tokens, t.type = TokenType.Delimiter → t.content = [s])
    (token prev_token next_token : Nat) :
    adjacent_delimiters tokens token prev_token next_token s = .ok tokens := by
  unfold adjacent_delimiters
  split
  · next h =>
    simp only [Bool.and_eq_true] at h
    simp [front_at_of_delimiter s tokens hQ _ h.2, bind, Except.bind]
  · split
    · next h =>
      simp only [Bool.and_eq_true] at h
      simp [front_at_of_delimiter s tokens hQ _ h.1, front_at_of_delimiter s tokens hQ _ h.2,
        bind, Except.bind]
    · rfl

theorem special_cases_strong (s : Char) (hs : s = ' ' ∨ s = '_') (tokens : Tokens)
    (token prev_token next_token : Nat) :
    special_cases tokens token prev_token next_token s = .ok tokens := by
  have hne : ¬ (s = '&' ∨ s = '+') := by
    rcases hs with h | h <;> subst h <;> decide
  unfold special_cases
  rw [if_neg hne]

theorem validate_token_strong (s : Char) (hs : s = ' ' ∨ s = '_') (tokens : Tokens)
    (hQ : ∀ t ∈ tokens, t.type = TokenType.Delimiter → t.content = [s])
    (token : Nat) (t : Token) (ht : tokens[token]? = some t) :
    validate_token tokens token = .ok tokens := by
  by_cases hty : t.type = TokenType.Delimiter
  · have hc := hQ t (List.getElem?_mem ht) hty
    have hstrong : ¬ (s ≠ ' ' ∧ s ≠ '_') := by
      rcases hs with h | h <;> subst h <;> decide
    unfold validate_token
    simp only [ht, hty, hc, front, bind, Except.bind, ne_eq, not_true_eq_false, if_false]
    rw [if_neg hstrong, adjacent_delimiters_same s tokens hQ]
    exact special_cases_strong s hs tokens _ _ _
  · exact validate_token_skip tokens token t ht hty

theorem validate_scan_strong (s : Char) (hs : s = ' ' ∨ s = '_') (tokens : Tokens)
    (hQ : ∀ t ∈ tokens, t.type = TokenType.Delimiter → t.content = [s]) :
    ∀ (fuel token : Nat), token ≤ tokens.length → tokens.length - token < fuel →
      validate_scan fuel tokens token = .ok tokens := by
  intro fuel
  induction fuel with
  | zero => intro token _ h; omega
  | succ fuel ih =>
    intro token hle hfuel
    unfold validate_scan
    by_cases hend : token = tokens.length
    · simp [hend]
    · have hlt : token < tokens.length := by omega
      have hget : tokens[token]? = some tokens[token] := List.getElem?_eq_getElem hlt
      rw [if_pos hend, validate_token_strong s hs tokens hQ token _ hget]
      simp only [bind, Except.bind]
      exact ih (token + 1) (by omega) (by omega)

theorem remove_invalid_of_valid (tokens : Tokens)
    (h : ∀ t ∈ tokens, t.type ≠ TokenType.Invalid) : remove_invalid tokens = tokens := by
  unfold remove_invalid
  rw [List.filter_eq_self]
  intro t ht
  simp [h t ht]

theorem TokenizeByBrackets_valid (filename : List Char) (options : Options) :
    ∀ t ∈ TokenizeByBrackets filename options [], t.type ≠ TokenType.Invalid :=
  TokenizeByBracketsLoop_forall (fun t => t.type ≠ TokenType.Invalid) options
    (fun _ _ _ => by simp) (fun _ _ _ => by simp) (fun _ => by simp)
    _ filename false char_zero [] rfl (by simp)

/-- C13: when the configured delimiter set consists of a single character that is space or
underscore, no repair rule applies: for every input string `Tokenize` returns exactly the
sequence produced by `TokenizeByBrackets`. -/
theorem strong_delimiter_only (filename : List Char) (options : Options) (s : Char)
    (hs : s = ' ' ∨ s = '_') (hset : ∀ c, c ∈ options.allowed_delimiters ↔ c = s) :
    Tokenize filename options = .ok (TokenizeByBrackets filename options []) := by
  have hQ : ∀ t ∈ TokenizeByBrackets filename options [],
      t.type = TokenType.Delimiter → t.content = [s] :=
    TokenizeByBracketsLoop_forall (fun t => t.type = TokenType.Delimiter → t.content = [s])
      options (fun _ _ _ h => by simp at h)
      (fun c _ hc _ => by simp [(hset c).mp hc]) (fun _ h => by simp at h)
      _ filename false char_zero [] rfl (by simp)
  unfold Tokenize ValidateTokens
  rw [validate_scan_strong s hs _ hQ _ 0 (by omega) (by omega)]
  simp only [bind, Except.bind]
  rw [remove_invalid_of_valid _ (TokenizeByBrackets_valid filename options)]

/-- Witness for C13: the input `"a b"` with space as the only delimiter. -/
theorem strong_delimiter_only_witness :
    Tokenize (str "a b") (delimiters " ")
      = .ok (TokenizeByBrackets (str "a b") (delimiters " ") []) :=
  strong_delimiter_only (str "a b") (delimiters " ") ' ' (Or.inl rfl)
    (fun c => by simp [delimiters])
/-! ## Delimiter segmenter: the shape of the output -/

theorem find_if_split (p : Char → Bool) (view : List Char) (k : Nat)
    (h : find_if p view = some k) :
    ∃ word c rest, view = word ++ c :: rest ∧ word.length = k ∧
      (∀ x ∈ word, p x = false) ∧ p c = true := by
  induction view generalizing k with
  | nil => simp [find_if] at h
  | cons x xs ih =>
    unfold find_if at h
    split at h
    · next hx => cases h; exact ⟨[], x, xs, rfl, rfl, by simp, hx⟩
    · next hx =>
      cases hr : find_if p xs with
      | none => simp [hr] at h
      | some j =>
        simp [hr] at h
        subst h
        obtain ⟨w, c, rest, hv, hl, hw, hc⟩ := ih j hr
        refine ⟨x :: w, c, rest, by simp [hv], by simp [hl], ?_, hc⟩
        intro y hy
        rcases List.mem_cons.mp hy with h | h
        · subst h; simpa using hx
        · exact hw y h

theorem find_if_none_all (p : Char → Bool) (view : List Char) (h : find_if p view = none) :
    ∀ x ∈ view, p x = false := by
  induction view with
  | nil => simp
  | cons x xs ih =>
    unfold find_if at h
    split at h
    · cases h
    · next hx =>
      cases hr : find_if p xs with
      | none =>
        intro y hy
        rcases List.mem_cons.mp hy with h' | h'
        · subst h'; simpa using hx
        · exact ih hr y h'
      | some j => simp [hr] at h

theorem no_adjacent_unknown_cons (t : Token) (tokens : Tokens)
    (ht : t.type ≠ TokenType.Unknown) (h : no_adjacent_unknown tokens) :
    no_adjacent_unknown (t :: tokens) := by
  cases tokens with
  | nil => simp [no_adjacent_unknown]
  | cons b rest => exact ⟨fun hh => ht hh.1, h⟩

theorem no_adjacent_unknown_cons_cons (a t : Token) (tokens : Tokens)
    (ht : t.type ≠ TokenType.Unknown) (h : no_adjacent_unknown tokens) :
    no_adjacent_unknown (a :: t :: tokens) :=
  ⟨fun hh => ht hh.2, no_adjacent_unknown_cons t tokens ht h⟩

/-- The properties of the tokens `TokenizeByDelimiters` builds from a run. -/
theorem TokenizeByDelimiters_shape (options : Options) (enclosed : Bool) :
    ∀ (n : Nat) (view : List Char), view.length = n →
      (∀ t ∈ TokenizeByDelimiters view options enclosed [],
        (t.type = TokenType.Delimiter ∧ ∃ c ∈ options.allowed_delimiters, t.content = [c]) ∨
        (t.type = TokenType.Unknown ∧ t.content ≠ [] ∧
          ∀ c ∈ t.content, c ∉ options.allowed_delimiters)) ∧
      no_adjacent_unknown (TokenizeByDelimiters view options enclosed []) ∧
      count_delimiters (TokenizeByDelimiters view options enclosed [])
        = count_delimiter_chars view options := by
  intro n
  induction n using Nat.strong_induction_on with
  | _ n ih =>
    intro view hlen
    by_cases hv : view = []
    · subst hv
      rw [TokenizeByDelimiters_nil]
      simp [no_adjacent_unknown, count_delimiters, count_delimiter_chars]
    · cases hpos : find_first_of view options.allowed_delimiters with
      | none =>
        have hall : ∀ c ∈ view, c ∉ options.allowed_delimiters := fun c hc => by
          simpa using find_if_none_all _ view hpos c hc
        rw [TokenizeByDelimiters_none _ _ _ _ hv hpos]
        refine ⟨?_, ?_, ?_⟩
        · intro t ht
          simp at ht; subst ht
          exact Or.inr ⟨rfl, hv, hall⟩
        · simp [no_adjacent_unknown]
        · have hz : count_delimiter_chars view options = 0 := by
            unfold count_delimiter_chars
            rw [List.countP_eq_zero]
            intro c hc
            simpa using hall c hc
          rw [hz]
          simp [count_delimiters]
      | some k =>
        obtain ⟨w, c, rest, hview, hwl, hw, hc⟩ := find_if_split _ view k hpos
        have hcd : c ∈ options.allowed_delimiters := by simpa using hc
        have hwd : ∀ x ∈ w, x ∉ options.allowed_delimiters := fun x hx => by
          simpa using hw x hx
        have hrec := ih rest.length (by rw [← hlen, hview]; simp; omega) rest rfl
        obtain ⟨h1, h2, h3⟩ := hrec
        have hwz : w.countP (fun c => options.allowed_delimiters.contains c) = 0 := by
          rw [List.countP_eq_zero]
          intro x hx
          simpa using hwd x hx
        have hcount : count_delimiter_chars view options
            = 1 + count_delimiter_chars rest options := by
          simp only [count_delimiter_chars, hview, List.countP_append, List.countP_cons, hc,
            if_true, hwz]
          omega
        subst hview
        by_cases hwe : w = []
        · subst hwe
          simp only [List.nil_append]
          rw [TokenizeByDelimiters_delimiter c rest options enclosed [] hcd,
            TokenizeByDelimiters_append]
          simp only [List.nil_append, List.singleton_append] at hcount ⊢
          refine ⟨?_, no_adjacent_unknown_cons _ _ (by simp) h2, ?_⟩
          · intro t ht
            rcases List.mem_cons.mp ht with h | h
            · subst h; exact Or.inl ⟨rfl, c, hcd, rfl⟩
            · exact h1 t h
          · rw [hcount, ← h3]
            simp [count_delimiters]; omega
        · rw [TokenizeByDelimiters_word_delimiter w c rest options enclosed [] hwe hwd hcd,
            TokenizeByDelimiters_append]
          simp only [List.nil_append, List.cons_append] at hcount ⊢
          refine ⟨?_, no_adjacent_unknown_cons_cons _ _ _ (by simp) h2, ?_⟩
          · intro t ht
            rcases List.mem_cons.mp ht with h | h
            · subst h; exact Or.inr ⟨rfl, hwe, hwd⟩
            · rcases List.mem_cons.mp h with h | h
              · subst h; exact Or.inl ⟨rfl, c, hcd, rfl⟩
              · exact h1 t h
          · rw [hcount, ← h3]
            simp [count_delimiters]; omega

/-- C14: for every text run, enclosed flag and delimiter set, `TokenizeByDelimiters` appends
tokens such that: every `Delimiter` token's value is exactly one character of the delimiter
set; every `Unknown` token's value is non-empty and contains no delimiter character (and there
is no token of another kind); no two `Unknown` tokens are adjacent; the number of `Delimiter`
tokens equals the number of delimiter characters in the run; and every token carries the given
enclosed flag. -/
theorem TokenizeByDelimiters_contract (view : List Char) (options : Options) (enclosed : Bool)
    (tokens : Tokens) :
    TokenizeByDelimiters view options enclosed tokens
      = tokens ++ TokenizeByDelimiters view options enclosed [] ∧
    (∀ t ∈ TokenizeByDelimiters view options enclosed [],
      (t.type = TokenType.Delimiter ∧ ∃ c ∈ options.allowed_delimiters, t.content = [c]) ∨
      (t.type = TokenType.Unknown ∧ t.content ≠ [] ∧
        ∀ c ∈ t.content, c ∉ options.allowed_delimiters)) ∧
    no_adjacent_unknown (TokenizeByDelimiters view options enclosed []) ∧
    count_delimiters (TokenizeByDelimiters view options enclosed [])
      = count_delimiter_chars view options ∧
    (∀ t ∈ TokenizeByDelimiters view options enclosed [], t.enclosed = enclosed) := by
  obtain ⟨h1, h2, h3⟩ := TokenizeByDelimiters_shape options enclosed _ view rfl
  exact ⟨TokenizeByDelimiters_append view options enclosed tokens, h1, h2, h3,
    TokenizeByDelimiters_enclosed view options enclosed⟩

/-! ## Bracket segmenter: single-level tracking -/

theorem bracket_tokens_append (xs ys : Tokens) :
    bracket_tokens (xs ++ ys) = bracket_tokens xs ++ bracket_tokens ys := by
  simp [bracket_tokens]

theorem bracket_tokens_TokenizeByDelimiters (view : List Char) (options : Options)
    (enclosed : Bool) :
    bracket_tokens (TokenizeByDelimiters view options enclosed []) = [] := by
  unfold bracket_tokens
  rw [List.filter_eq_nil_iff]
  intro t ht
  simpa using TokenizeByDelimiters_no_bracket view options enclosed t ht

theorem TokenizeByBracketsLoop_closed_matching (view : List Char) (options : Options)
    (m1 m2 : Char) (tokens : Tokens) :
    TokenizeByBracketsLoop view options false m1 tokens
      = TokenizeByBracketsLoop view options false m2 tokens := by
  cases hpos : find_first_of view brackets_left with
  | none =>
    rw [TokenizeByBracketsLoop_closed_none _ _ _ _ hpos,
      TokenizeByBracketsLoop_closed_none _ _ _ _ hpos]
  | some p =>
    rw [TokenizeByBracketsLoop_closed_some _ _ _ _ _ hpos,
      TokenizeByBracketsLoop_closed_some _ _ _ _ _ hpos]

theorem TokenizeByBracketsLoop_alternate (options : Options) :
    ∀ (n : Nat) (view : List Char), view.length = n →
      (∀ m, brackets_alternate
        (bracket_tokens (TokenizeByBracketsLoop view options false m []))) ∧
      (∀ c ∈ brackets_left, brackets_alternate
        (⟨TokenType.Bracket, [c], true⟩ ::
          bracket_tokens (TokenizeByBracketsLoop view options true (paired_bracket c) []))) := by
  intro n
  induction n using Nat.strong_induction_on with
  | _ n ih =>
    intro view hlen
    constructor
    · intro m
      cases hpos : find_first_of view brackets_left with
      | none =>
        rw [TokenizeByBracketsLoop_closed_none _ _ _ _ hpos,
          bracket_tokens_TokenizeByDelimiters]
        trivial
      | some p =>
        obtain ⟨w, c, rest, hview, hwl, _, hc⟩ := find_if_split _ view p hpos
        have hcl : c ∈ brackets_left := by simpa using hc
        subst hview
        subst hwl
        rw [TokenizeByBracketsLoop_closed_some _ _ _ _ _ hpos, substr_word, substr_after_word,
          remove_front_word, getD_after_word, TokenizeByBracketsLoop_append,
          bracket_tokens_append, bracket_tokens_append, bracket_tokens_TokenizeByDelimiters]
        have hrec := (ih rest.length (by rw [← hlen]; simp; omega) rest rfl).2 c hcl
        simpa [bracket_tokens] using hrec
    · intro c hcl
      cases hpos : find view (paired_bracket c) with
      | none =>
        rw [TokenizeByBracketsLoop_open_none _ _ _ _ hpos,
          bracket_tokens_TokenizeByDelimiters]
        exact ⟨c, hcl, rfl⟩
      | some p =>
        obtain ⟨w, x, rest, hview, hwl, _, hx⟩ := find_if_split _ view p hpos
        have hxc : x = paired_bracket c := by simpa using hx
        subst hview
        subst hwl
        rw [TokenizeByBracketsLoop_open_some _ _ _ _ _ hpos, substr_word, substr_after_word,
          remove_front_word, TokenizeByBracketsLoop_append,
          bracket_tokens_append, bracket_tokens_append, bracket_tokens_TokenizeByDelimiters]
        have hrec := (ih rest.length (by rw [← hlen]; simp; omega) rest rfl).1
          (paired_bracket c)
        simp only [bracket_tokens, List.filter_cons, beq_self_eq_true, if_true,
          List.filter_nil, List.nil_append, List.singleton_append]
        exact ⟨⟨c, hcl, rfl, by rw [hxc]⟩, hrec⟩

theorem TokenizeByBrackets_nested (o : Char) (a rest : List Char) (options : Options)
    (ho : o ∈ brackets_left) (ha : paired_bracket o ∉ a) :
    TokenizeByBrackets (o :: (a ++ paired_bracket o :: rest)) options []
      = ⟨TokenType.Bracket, [o], true⟩ ::
          (TokenizeByDelimiters a options true []
            ++ ⟨TokenType.Bracket, [paired_bracket o], true⟩ ::
              TokenizeByBrackets rest options []) := by
  have hopen : find_first_of (o :: (a ++ paired_bracket o :: rest)) brackets_left = some 0 := by
    simp [find_first_of, find_if, ho]
  have hclose : find (a ++ paired_bracket o :: rest) (paired_bracket o) = some a.length :=
    find_if_append _ a _ rest (fun c hc => by
      simp only [beq_eq_false_iff_ne, ne_eq]
      intro h; subst h; exact ha hc) (by simp)
  unfold TokenizeByBrackets
  rw [TokenizeByBracketsLoop_closed_some _ _ _ _ _ hopen]
  simp only [substr, remove_front, List.drop_zero, List.take_zero, List.drop_succ_cons,
    List.take_succ_cons, TokenizeByDelimiters_nil, List.nil_append, List.getD_cons_zero]
  rw [TokenizeByBracketsLoop_open_some _ _ _ _ _ hclose, substr_word, substr_after_word,
    remove_front_word, TokenizeByBracketsLoop_append,
    TokenizeByDelimiters_append a,
    TokenizeByBracketsLoop_closed_matching rest options (paired_bracket o) char_zero]
  simp

/-- C15: single-level bracket tracking. In the sequence built by `TokenizeByBrackets` the
`Bracket` tokens alternate, the 1st, 3rd, ... holding a left-bracket character and each 2nd,
4th, ... holding exactly the right bracket paired with the opener just before it; the text
between an opener and its closer goes to `TokenizeByDelimiters` only, which builds no `Bracket`
token, so a left bracket met while one is open stays inside ordinary text; `"[a[b]c]"` with no
delimiters gives `Bracket "["`, `Unknown "a[b"` enclosed, `Bracket "]"`, `Unknown "c]"` not
enclosed. -/
theorem single_level_bracket_tracking (filename : List Char) (options : Options) :
    brackets_alternate (bracket_tokens (TokenizeByBrackets filename options [])) ∧
    (∀ (o : Char) (a rest : List Char), o ∈ brackets_left → paired_bracket o ∉ a →
      TokenizeByBrackets (o :: (a ++ paired_bracket o :: rest)) options []
        = ⟨TokenType.Bracket, [o], true⟩ ::
            (TokenizeByDelimiters a options true []
              ++ ⟨TokenType.Bracket, [paired_bracket o], true⟩ ::
                TokenizeByBrackets rest options []) ∧
      bracket_tokens (TokenizeByDelimiters a options true []) = []) ∧
    TokenizeByBrackets (str "[a[b]c]") (delimiters "") [] =
      [⟨TokenType.Bracket, str "[", true⟩, ⟨TokenType.Unknown, str "a[b", true⟩,
       ⟨TokenType.Bracket, str "]", true⟩, ⟨TokenType.Unknown, str "c]", false⟩] :=
  ⟨(TokenizeByBracketsLoop_alternate options _ filename rfl).1 char_zero,
    fun o a rest ho ha => ⟨TokenizeByBrackets_nested o a rest options ho ha,
      bracket_tokens_TokenizeByDelimiters a options true⟩,
    by decide!⟩
/-! ## Validator: adjacent delimiters and the next-token guard -/

/-- C16: adjacent-delimiter reconciliation with the comma exception. For non-empty words `u`,
`v` with no bracket or delimiter characters and `u` of length at least 2, `s` in {space,
underscore} and another character `d` that is not a bracket, both configured as delimiters,
`Tokenize` of `u d s v` returns `[Unknown u++d, Delimiter s, Unknown v]` when `d` is not a
comma, and the unmerged `[Unknown u, Delimiter ",", Delimiter s, Unknown v]` when `d` is a
comma. -/
theorem adjacent_delimiter_reconciliation (u v : List Char) (s d : Char) (options : Options)
    (hu : 2 ≤ u.length) (hv : v ≠ [])
    (hub : ∀ c ∈ u, c ∉ brackets_left ∧ c ∉ brackets_right ∧ c ∉ options.allowed_delimiters)
    (hvb : ∀ c ∈ v, c ∉ brackets_left ∧ c ∉ brackets_right ∧ c ∉ options.allowed_delimiters)
    (hs : s = ' ' ∨ s = '_') (hds : d ≠ s)
    (hdb : d ∉ brackets_left ∧ d ∉ brackets_right)
    (hsd : s ∈ options.allowed_delimiters) (hdd : d ∈ options.allowed_delimiters) :
    (d ≠ ',' → Tokenize (u ++ d :: s :: v) options = .ok
      [⟨TokenType.Unknown, u ++ [d], false⟩, ⟨TokenType.Delimiter, [s], false⟩,
       ⟨TokenType.Unknown, v, false⟩]) ∧
    (d = ',' → Tokenize (u ++ d :: s :: v) options = .ok
      [⟨TokenType.Unknown, u, false⟩, ⟨TokenType.Delimiter, [','], false⟩,
       ⟨TokenType.Delimiter, [s], false⟩, ⟨TokenType.Unknown, v, false⟩]) := by
  have hune : u ≠ [] := by
    intro h; subst h; simp at hu
  have hsb : s ∉ brackets_left := by
    rcases hs with h | h <;> subst h <;> decide
  have hseg : TokenizeByBrackets (u ++ d :: s :: v) options []
      = [⟨TokenType.Unknown, u, false⟩, ⟨TokenType.Delimiter, [d], false⟩,
         ⟨TokenType.Delimiter, [s], false⟩, ⟨TokenType.Unknown, v, false⟩] := by
    unfold TokenizeByBrackets
    rw [TokenizeByBracketsLoop_no_bracket]
    · rw [TokenizeByDelimiters_word_delimiter u d _ _ _ _ hune (fun c hc => (hub c hc).2.2) hdd,
        TokenizeByDelimiters_delimiter s v _ _ _ hsd,
        TokenizeByDelimiters_word v _ _ _ hv (fun c hc => (hvb c hc).2.2)]
      rfl
    · intro c hc
      simp only [List.mem_append, List.mem_cons] at hc
      rcases hc with h | h | h | h
      · exact (hub c h).1
      · subst h; exact hdb.1
      · subst h; exact hsb
      · exact (hvb c h).1
  obtain ⟨x, y, u, rfl⟩ : ∃ x y u', u = x :: y :: u' := by
    match u, hu with
    | x :: y :: u', _ => exact ⟨x, y, u', rfl⟩
  obtain ⟨z, v, rfl⟩ := List.exists_cons_of_ne_nil hv
  have hsd2 : ¬ s = d := fun h => hds h.symm
  unfold Tokenize
  rw [hseg]
  constructor
  · intro hcomma
    rcases hs with h | h <;> subst h <;>
      by_cases hweak : d ≠ ' ' ∧ d ≠ '_' <;>
      simp [ValidateTokens, validate_scan, validate_token, front, FindPreviousToken,
        FindNextToken, find_valid, is_valid, is_single_character_token, adjacent_delimiters,
        special_cases, is_unknown_token, is_delimiter_token, front_at, set_type, bind,
        Except.bind, remove_invalid, append_token_to, hds, hsd2, hweak, hcomma]
  · intro hcomma
    subst hcomma
    rcases hs with h | h <;> subst h <;>
      simp [ValidateTokens, validate_scan, validate_token, front, FindPreviousToken,
        FindNextToken, find_valid, is_valid, is_single_character_token, adjacent_delimiters,
        special_cases, is_unknown_token, is_delimiter_token, front_at, set_type, bind,
        Except.bind, remove_invalid, append_token_to]

/-- Witness for C16: the input `"ab. cd"` with space and `.` as delimiters. -/
theorem adjacent_delimiter_reconciliation_witness :
    ('.' ≠ ',' → Tokenize (str "ab" ++ '.' :: ' ' :: str "cd") (delimiters " .") = .ok
      [⟨TokenType.Unknown, str "ab" ++ ['.'], false⟩, ⟨TokenType.Delimiter, [' '], false⟩,
       ⟨TokenType.Unknown, str "cd", false⟩]) ∧
    ('.' = ',' → Tokenize (str "ab" ++ '.' :: ' ' :: str "cd") (delimiters " .") = .ok
      [⟨TokenType.Unknown, str "ab", false⟩, ⟨TokenType.Delimiter, [','], false⟩,
       ⟨TokenType.Delimiter, [' '], false⟩, ⟨TokenType.Unknown, str "cd", false⟩]) :=
  adjacent_delimiter_reconciliation (str "ab") (str "cd") ' ' '.' (delimiters " .")
    (by decide) (by decide) (by decide) (by decide) (Or.inl rfl) (by decide)
    ⟨by decide, by decide⟩ (by decide) (by decide)

/-- C17 (amended): next-token single-character guard. For every word `u` of length at least 2
and every character `c` that is not a hyphen (`u` and `c` containing no bracket or delimiter
characters), and every configured delimiter `d` other than space and underscore that is not an
opening bracket, `Tokenize` of `u d c` returns exactly one token, of kind `Unknown`, with value
`u d c`. -/
theorem next_token_single_character (u : List Char) (c d : Char) (options : Options)
    (hu : 2 ≤ u.length) (hc : c ≠ '-')
    (hub : ∀ x ∈ u, x ∉ brackets_left ∧ x ∉ brackets_right ∧ x ∉ options.allowed_delimiters)
    (hcb : c ∉ brackets_left ∧ c ∉ brackets_right ∧ c ∉ options.allowed_delimiters)
    (hd : d ∈ options.allowed_delimiters) (hds : d ≠ ' ') (hdu : d ≠ '_')
    (hdb : d ∉ brackets_left) :
    Tokenize (u ++ [d, c]) options = .ok [⟨TokenType.Unknown, u ++ [d, c], false⟩] := by
  have hune : u ≠ [] := by
    intro h; subst h; simp at hu
  have hseg : TokenizeByBrackets (u ++ [d, c]) options []
      = [⟨TokenType.Unknown, u, false⟩, ⟨TokenType.Delimiter, [d], false⟩,
         ⟨TokenType.Unknown, [c], false⟩] := by
    unfold TokenizeByBrackets
    rw [TokenizeByBracketsLoop_no_bracket]
    · rw [TokenizeByDelimiters_word_delimiter u d _ _ _ _ hune (fun x hx => (hub x hx).2.2) hd,
        TokenizeByDelimiters_word [c] _ _ _ (by simp) (by simpa using hcb.2.2)]
      rfl
    · intro x hx
      simp only [List.mem_append, List.mem_cons, List.mem_singleton, List.not_mem_nil,
        or_false] at hx
      rcases hx with h | h | h
      · exact (hub x h).1
      · subst h; exact hdb
      · subst h; exact hcb.1
  obtain ⟨x, y, u, rfl⟩ : ∃ x y u', u = x :: y :: u' := by
    match u, hu with
    | x :: y :: u', _ => exact ⟨x, y, u', rfl⟩
  unfold Tokenize
  rw [hseg]
  simp [ValidateTokens, validate_scan, validate_token, front, FindPreviousToken,
    FindNextToken, find_valid, is_valid, is_single_character_token, adjacent_delimiters,
    special_cases, is_unknown_token, is_delimiter_token, front_at, set_type, bind,
    Except.bind, remove_invalid, append_token_to, hds, hdu, hc]

/-- Witness for C17: the input `"ab-c"` with `-` as delimiter. -/
theorem next_token_single_character_witness :
    Tokenize (str "ab" ++ ['-', 'c']) (delimiters "-")
      = .ok [⟨TokenType.Unknown, str "ab" ++ ['-', 'c'], false⟩] :=
  next_token_single_character (str "ab") 'c' '-' (delimiters "-") (by decide) (by decide)
    (by decide) (by decide) (by decide) (by decide) (by decide) (by decide)

/-- Counterexample to C17 as stated: with the opening bracket `[` configured as the delimiter
`d`, all hypotheses of the claim hold for `u = "ab"` and `c = 'c'`, yet `Tokenize` of `"ab[c"`
returns three tokens, because brackets are segmented before delimiters. -/
theorem next_token_single_character_counterexample :
    (2 ≤ (str "ab").length ∧ 'c' ≠ '-' ∧
      (∀ x ∈ str "ab", x ∉ brackets_left ∧ x ∉ brackets_right ∧
        x ∉ (delimiters "[").allowed_delimiters) ∧
      ('c' ∉ brackets_left ∧ 'c' ∉ brackets_right ∧
        'c' ∉ (delimiters "[").allowed_delimiters) ∧
      '[' ∈ (delimiters "[").allowed_delimiters ∧ '[' ≠ ' ' ∧ '[' ≠ '_') ∧
    Tokenize (str "ab" ++ ['[', 'c']) (delimiters "[") = .ok
      [⟨TokenType.Unknown, str "ab", false⟩, ⟨TokenType.Bracket, str "[", true⟩,
       ⟨TokenType.Unknown, str "c", true⟩] ∧
    Tokenize (str "ab" ++ ['[', 'c']) (delimiters "[")
      ≠ .ok [⟨TokenType.Unknown, str "ab" ++ ['[', 'c'], false⟩] := by
  decide!

/-! ## Validator: the only fault is a dereference of `tokens.end()` -/

theorem ends_well_bind {α β : Type} (P : β → Prop) (Q : α → Prop) (x : Except Fault α)
    (f : α → Except Fault β) (hx : ends_well Q x) (hf : ∀ a, Q a → ends_well P (f a)) :
    ends_well P (x >>= f) := by
  cases x with
  | error e => exact hx
  | ok a => exact hf a hx

theorem set_type_ends_well (size : Nat) (tokens : Tokens) (it : Nat) (type : TokenType)
    (h : sized_nonempty size tokens) :
    ends_well (sized_nonempty size) (set_type tokens it type) := by
  unfold set_type
  cases hget : tokens[it]? with
  | none => rfl
  | some t =>
    refine ⟨by simpa using h.1, ?_⟩
    intro u hu
    rcases List.mem_or_eq_of_mem_set hu with hm | hm
    · exact h.2 u hm
    · subst hm; exact h.2 t (List.getElem?_mem hget)

theorem append_token_to_ends_well (size : Nat) (tokens : Tokens) (token append_to : Nat)
    (h : sized_nonempty size tokens) :
    ends_well (sized_nonempty size) (append_token_to tokens token append_to) := by
  unfold append_token_to
  split
  · next t a ht ha =>
    apply set_type_ends_well
    refine ⟨by simpa using h.1, ?_⟩
    intro u hu
    rcases List.mem_or_eq_of_mem_set hu with hm | hm
    · exact h.2 u hm
    · subst hm
      have := h.2 a (List.getElem?_mem ha)
      simp [this]
  · rfl

theorem front_ends_well (content : List Char) (h : content ≠ []) :
    ends_well (fun _ => True) (front content) := by
  cases content with
  | nil => exact absurd rfl h
  | cons c rest => trivial

theorem front_at_ends_well (tokens : Tokens) (it : Nat)
    (h : ∀ t ∈ tokens, t.content ≠ []) : ends_well (fun _ => True) (front_at tokens it) := by
  unfold front_at
  cases hget : tokens[it]? with
  | none => rfl
  | some t => exact front_ends_well _ (h t (List.getElem?_mem hget))

theorem find_valid_lt (tokens : Tokens) (k : Nat) (h : find_valid tokens = some k) :
    k < tokens.length := by
  induction tokens generalizing k with
  | nil => simp [find_valid] at h
  | cons t rest ih =>
    unfold find_valid at h
    split at h
    · cases h; simp
    · cases hr : find_valid rest with
      | none => simp [hr] at h
      | some j =>
        simp [hr] at h
        have := ih j hr
        subst h
        simp
        omega

theorem FindNextToken_le (tokens : Tokens) (first : Nat) :
    FindNextToken tokens first ≤ tokens.length := by
  unfold FindNextToken
  split
  · next k hk =>
    have := find_valid_lt _ _ hk
    simp at this
    omega
  · exact Nat.le_refl _

theorem FindNextToken_gt (tokens : Tokens) (first : Nat) (h : first < tokens.length) :
    first < FindNextToken tokens first := by
  unfold FindNextToken
  split
  · omega
  · exact h

theorem is_unknown_token_lt (tokens : Tokens) (it : Nat)
    (h : is_unknown_token tokens it = true) : it < tokens.length := by
  unfold is_unknown_token at h
  cases hget : tokens[it]? with
  | none => simp [hget] at h
  | some t => exact (List.getElem?_eq_some.mp hget).1

theorem is_delimiter_token_lt (tokens : Tokens) (it : Nat)
    (h : is_delimiter_token tokens it = true) : it < tokens.length := by
  unfold is_delimiter_token at h
  cases hget : tokens[it]? with
  | none => simp [hget] at h
  | some t => exact (List.getElem?_eq_some.mp hget).1

theorem absorb_loop_ends_well (size : Nat) :
    ∀ (fuel : Nat) (tokens : Tokens) (next_token prev_token : Nat) (delimiter : Char),
      sized_nonempty size tokens → size - next_token < fuel →
      ends_well (sized_nonempty size)
        (absorb_loop fuel tokens next_token prev_token delimiter) := by
  intro fuel
  induction fuel with
  | zero => intro tokens nt pt d _ h; omega
  | succ fuel ih =>
    intro tokens nt pt d hP hfuel
    unfold absorb_loop
    split
    · next hU =>
      have hnt : nt < size := by rw [← hP.1]; exact is_unknown_token_lt _ _ hU
      apply ends_well_bind _ _ _ _ (append_token_to_ends_well size tokens nt pt hP)
      intro ts1 h1
      have hn1 : nt < FindNextToken ts1 nt := FindNextToken_gt ts1 nt (by rw [h1.1]; exact hnt)
      simp only []
      split
      · next hD =>
        have hn1lt : FindNextToken ts1 nt < size := by
          rw [← h1.1]; exact is_delimiter_token_lt _ _ hD
        apply ends_well_bind _ _ _ _ (front_at_ends_well ts1 _ h1.2)
        intro c _
        split
        · apply ends_well_bind _ _ _ _ (append_token_to_ends_well size ts1 _ pt h1)
          intro ts2 h2
          have hn2 := FindNextToken_gt ts2 (FindNextToken ts1 nt) (by rw [h2.1]; exact hn1lt)
          exact ih _ _ _ _ h2 (by omega)
        · exact ih _ _ _ _ h1 (by omega)
      · exact ih _ _ _ _ h1 (by omega)
    · exact hP

theorem adjacent_delimiters_ends_well (size : Nat) (tokens : Tokens)
    (token prev_token next_token : Nat) (delimiter : Char) (hP : sized_nonempty size tokens) :
    ends_well (sized_nonempty size)
      (adjacent_delimiters tokens token prev_token next_token delimiter) := by
  unfold adjacent_delimiters
  split
  · apply ends_well_bind _ _ _ _ (front_at_ends_well tokens _ hP.2)
    intro c _
    split
    · split
      · exact append_token_to_ends_well size tokens _ _ hP
      · exact hP
    · exact hP
  · split
    · apply ends_well_bind _ _ _ _ (front_at_ends_well tokens _ hP.2)
      intro c _
      apply ends_well_bind _ _ _ _ (front_at_ends_well tokens _ hP.2)
      intro c2 _
      split
      · exact set_type_ends_well size tokens _ _ hP
      · exact hP
    · exact hP

theorem special_cases_ends_well (size : Nat) (tokens : Tokens)
    (token prev_token next_token : Nat) (delimiter : Char) (hP : sized_nonempty size tokens) :
    ends_well (sized_nonempty size)
      (special_cases tokens token prev_token next_token delimiter) := by
  unfold special_cases
  split
  · split
    · split
      · split
        · apply ends_well_bind _ _ _ _ (append_token_to_ends_well size tokens _ _ hP)
          intro ts1 h1
          exact append_token_to_ends_well size ts1 _ _ h1
        · exact hP
      · rfl
    · exact hP
  · exact hP

theorem validate_token_ends_well (size : Nat) (tokens : Tokens) (token : Nat)
    (hP : sized_nonempty size tokens) :
    ends_well (sized_nonempty size) (validate_token tokens token) := by
  unfold validate_token
  split
  · rfl
  · next t ht =>
    split
    · exact hP
    · apply ends_well_bind _ _ _ _ (front_ends_well _ (hP.2 t (List.getElem?_mem ht)))
      intro d _
      have hrest : ends_well (sized_nonempty size)
          (adjacent_delimiters tokens token (FindPreviousToken tokens token)
            (FindNextToken tokens token) d >>= fun ts =>
              special_cases ts token (FindPreviousToken tokens token)
                (FindNextToken tokens token) d) := by
        apply ends_well_bind _ _ _ _ (adjacent_delimiters_ends_well size tokens _ _ _ _ hP)
        intro ts1 h1
        exact special_cases_ends_well size ts1 _ _ _ _ h1
      simp only []
      split
      · split
        · apply ends_well_bind _ _ _ _ (append_token_to_ends_well size tokens _ _ hP)
          intro ts1 h1
          exact absorb_loop_ends_well size _ ts1 _ _ _ h1 (by rw [h1.1]; omega)
        · split
          · apply ends_well_bind _ _ _ _ (append_token_to_ends_well size tokens _ _ hP)
            intro ts1 h1
            exact append_token_to_ends_well size ts1 _ _ h1
          · exact hrest
      · exact hrest

theorem validate_scan_ends_well (size : Nat) :
    ∀ (fuel : Nat) (tokens : Tokens) (token : Nat), sized_nonempty size tokens →
      size - token < fuel → ends_well (sized_nonempty size) (validate_scan fuel tokens token) := by
  intro fuel
  induction fuel with
  | zero => intro tokens token _ h; omega
  | succ fuel ih =>
    intro tokens token hP hfuel
    unfold validate_scan
    split
    · by_cases hlt : token < size
      · apply ends_well_bind _ _ _ _ (validate_token_ends_well size tokens token hP)
        intro ts1 h1
        exact ih ts1 (token + 1) h1 (by omega)
      · have hnone : tokens[token]? = none := by
          apply List.getElem?_eq_none
          rw [hP.1]; omega
        have herr : validate_token tokens token = .error Fault.EndDeref := by
          unfold validate_token
          rw [hnone]
        rw [herr]
        rfl
    · exact hP

theorem TokenizeByBrackets_nonempty (filename : List Char) (options : Options) :
    ∀ t ∈ TokenizeByBrackets filename options [], t.content ≠ [] :=
  TokenizeByBracketsLoop_forall (fun t => t.content ≠ []) options
    (fun _ _ h => h) (fun _ _ _ => by simp) (fun _ => by simp)
    _ filename false char_zero [] rfl (by simp)

theorem Tokenize_ends_well (filename : List Char) (options : Options) :
    ends_well (fun tokens => ∀ t ∈ tokens, t.content ≠ []) (Tokenize filename options) := by
  unfold Tokenize ValidateTokens
  apply ends_well_bind _ _ _ _
    (validate_scan_ends_well _ _ _ 0 ⟨rfl, TokenizeByBrackets_nonempty filename options⟩
      (by omega))
  intro scanned hs t ht
  simp only [remove_invalid, List.mem_filter] at ht
  exact hs.2 t ht.1
theorem remove_front_shorter (p : Char → Bool) (view : List Char) (k : Nat)
    (h : find_if p view = some k) : (remove_front view (k + 1)).length < view.length := by
  have := find_if_lt p view k h
  simp [remove_front]
  omega

theorem set_type_length (tokens : Tokens) (it : Nat) (type : TokenType) (out : Tokens)
    (h : set_type tokens it type = .ok out) : out.length = tokens.length := by
  unfold set_type at h
  split at h
  · cases h
  · cases h; simp

theorem append_token_to_length (tokens : Tokens) (token append_to : Nat) (out : Tokens)
    (h : append_token_to tokens token append_to = .ok out) : out.length = tokens.length := by
  unfold append_token_to at h
  split at h
  · rw [set_type_length _ _ _ _ h]; simp
  · cases h

/-- The loops make progress. Each iteration of the loops of `TokenizeByBrackets` and
`TokenizeByDelimiters` strictly shortens the remaining view; in `ValidateTokens` the body of the
scan and the absorbing loop keep the length of the sequence, `FindNextToken` moves strictly
forward and never past the end; and the iteration budget of the two validator loops (the length
of the sequence plus one) is never used up. This does not say that `Tokenize` returns: a run
may stop at a dereference of `tokens.end()`. -/
theorem loops_progress (filename : List Char) (options : Options) :
    (∀ (view chars : List Char) (p : Nat), find_first_of view chars = some p →
      (remove_front view (p + 1)).length < view.length) ∧
    (∀ (view : List Char) (ch : Char) (p : Nat), find view ch = some p →
      (remove_front view (p + 1)).length < view.length) ∧
    (∀ (tokens : Tokens) (token : Nat) (out : Tokens),
      validate_token tokens token = .ok out → out.length = tokens.length) ∧
    (∀ (fuel : Nat) (tokens : Tokens) (next_token prev_token : Nat) (delimiter : Char)
      (out : Tokens), absorb_loop fuel tokens next_token prev_token delimiter = .ok out →
      out.length = tokens.length) ∧
    (∀ (tokens : Tokens) (first : Nat), first < tokens.length →
      first < FindNextToken tokens first ∧ FindNextToken tokens first ≤ tokens.length) ∧
    Tokenize filename options ≠ .error Fault.OutOfFuel := by
  refine ⟨fun view chars p h => remove_front_shorter _ view p h,
    fun view ch p h => remove_front_shorter _ view p h, ?_, ?_,
    fun tokens first h => ⟨FindNextToken_gt tokens first h, FindNextToken_le tokens first⟩, ?_⟩
  · intro tokens token out h
    exact validate_token_preserves (fun ts => ts.length = tokens.length)
      (fun ts i j ts' hP happ => (append_token_to_length ts i j ts' happ).trans hP)
      (fun ts i ts' hP hset => (set_type_length ts i _ ts' hset).trans hP)
      tokens token out rfl h
  · intro fuel tokens nt pt d out h
    exact absorb_loop_preserves (fun ts => ts.length = tokens.length)
      (fun ts i j ts' hP happ => (append_token_to_length ts i j ts' happ).trans hP)
      fuel tokens nt pt d out rfl h
  · intro h
    have := Tokenize_ends_well filename options
    rw [h] at this
    cases this

/-- C18 at the failing input `".a"` with the delimiter set `" _.&+,|"`: the scan of
`ValidateTokens` stops at its first token, where the merge of line 131 dereferences
`tokens.end()`, so `Tokenize` does not run to completion and returns no token sequence. -/
theorem Tokenize_stops_at_first_token :
    TokenizeByBrackets (str ".a") (delimiters " _.&+,|") []
      = [⟨TokenType.Delimiter, str ".", false⟩, ⟨TokenType.Unknown, str "a", false⟩] ∧
    validate_scan 3
      [⟨TokenType.Delimiter, str ".", false⟩, ⟨TokenType.Unknown, str "a", false⟩] 0
      = .error Fault.EndDeref ∧
    Tokenize (str ".a") (delimiters " _.&+,|") = .error Fault.EndDeref ∧
    ¬ ∃ tokens, Tokenize (str ".a") (delimiters " _.&+,|") = .ok tokens := by
  have h : Tokenize (str ".a") (delimiters " _.&+,|") = .error Fault.EndDeref := by decide!
  refine ⟨by decide!, by decide!, h, ?_⟩
  rintro ⟨tokens, hok⟩
  rw [h] at hok
  cases hok

/-- C20: every token built by `TokenizeByBrackets` and every token returned by `Tokenize` has a
non-empty value, and `ValidateTokens` never reads the front of an empty value. -/
theorem token_values_nonempty (filename : List Char) (options : Options) :
    (∀ t ∈ TokenizeByBrackets filename options [], t.content ≠ []) ∧
    (∀ tokens, Tokenize filename options = .ok tokens → ∀ t ∈ tokens, t.content ≠ []) ∧
    Tokenize filename options ≠ .error Fault.EmptyFront := by
  have hw := Tokenize_ends_well filename options
  refine ⟨TokenizeByBrackets_nonempty filename options, ?_, ?_⟩
  · intro tokens h
    rw [h] at hw
    exact hw
  · intro h
    rw [h] at hw
    cases hw

/-! ## Validator: navigation between valid tokens -/

theorem kind_at_some (tokens : Tokens) (k : Nat) (t : Token) (h : tokens[k]? = some t) :
    kind_at tokens k = some t.type := by
  simp [kind_at, h]

theorem kind_at_zero (t : Token) (rest : Tokens) : kind_at (t :: rest) 0 = some t.type := by
  simp [kind_at]

theorem kind_at_succ (t : Token) (rest : Tokens) (k : Nat) :
    kind_at (t :: rest) (k + 1) = kind_at rest k := by
  simp [kind_at]

theorem kind_at_drop (tokens : Tokens) (a m : Nat) :
    kind_at (tokens.drop a) m = kind_at tokens (a + m) := by
  simp [kind_at, List.getElem?_drop]

theorem kind_at_lt (tokens : Tokens) (k : Nat) (type : TokenType)
    (h : kind_at tokens k = some type) : k < tokens.length := by
  unfold kind_at at h
  cases hget : tokens[k]? with
  | none => simp [hget] at h
  | some t => exact (List.getElem?_eq_some.mp hget).1

theorem kind_at_exists (tokens : Tokens) (k : Nat) (type : TokenType)
    (h : kind_at tokens k = some type) : ∃ t, tokens[k]? = some t ∧ t.type = type := by
  unfold kind_at at h
  cases hget : tokens[k]? with
  | none => simp [hget] at h
  | some t => exact ⟨t, rfl, by simpa [hget] using h⟩

theorem is_unknown_token_iff (tokens : Tokens) (it : Nat) :
    is_unknown_token tokens it = true ↔ kind_at tokens it = some TokenType.Unknown := by
  unfold is_unknown_token kind_at
  cases tokens[it]? <;> simp

theorem is_delimiter_token_iff (tokens : Tokens) (it : Nat) :
    is_delimiter_token tokens it = true ↔ kind_at tokens it = some TokenType.Delimiter := by
  unfold is_delimiter_token kind_at
  cases tokens[it]? <;> simp

theorem valid_at_lt (tokens : Tokens) (k : Nat) (h : valid_at tokens k) :
    k < tokens.length := by
  obtain ⟨type, hk, _⟩ := h
  exact kind_at_lt tokens k type hk

theorem find_valid_none (tokens : Tokens) (h : find_valid tokens = none) :
    ∀ k, k < tokens.length → kind_at tokens k = some TokenType.Invalid := by
  induction tokens with
  | nil => intro k hk; simp at hk
  | cons t rest ih =>
    unfold find_valid at h
    split at h
    · cases h
    · next hv =>
      cases hr : find_valid rest with
      | some j => simp [hr] at h
      | none =>
        intro k hk
        cases k with
        | zero =>
          rw [kind_at_zero]
          simpa [is_valid] using hv
        | succ m =>
          rw [kind_at_succ]
          exact ih hr m (by simpa using hk)

theorem find_valid_some (tokens : Tokens) (k : Nat) (h : find_valid tokens = some k) :
    valid_at tokens k ∧ ∀ m, m < k → kind_at tokens m = some TokenType.Invalid := by
  induction tokens generalizing k with
  | nil => simp [find_valid] at h
  | cons t rest ih =>
    unfold find_valid at h
    split at h
    · next hv =>
      cases h
      refine ⟨⟨t.type, kind_at_zero t rest, by simpa [is_valid] using hv⟩, ?_⟩
      intro m hm; omega
    · next hv =>
      cases hr : find_valid rest with
      | none => simp [hr] at h
      | some j =>
        simp [hr] at h
        subst h
        obtain ⟨⟨type, hk, hty⟩, hbefore⟩ := ih j hr
        refine ⟨⟨type, by rw [kind_at_succ]; exact hk, hty⟩, ?_⟩
        intro m hm
        cases m with
        | zero =>
          rw [kind_at_zero]
          simpa [is_valid] using hv
        | succ m' =>
          rw [kind_at_succ]
          exact hbefore m' (by omega)

theorem FindNextToken_spec (tokens : Tokens) (first : Nat) :
    invalid_between tokens first (FindNextToken tokens first) ∧
    (FindNextToken tokens first < tokens.length →
      valid_at tokens (FindNextToken tokens first)) := by
  unfold FindNextToken
  split
  · next k hk =>
    obtain ⟨⟨type, hkind, hty⟩, hbefore⟩ := find_valid_some _ k hk
    rw [kind_at_drop] at hkind
    refine ⟨?_, fun _ => ⟨type, hkind, hty⟩⟩
    intro m h1 h2
    have := hbefore (m - (first + 1)) (by omega)
    rw [kind_at_drop] at this
    rwa [show first + 1 + (m - (first + 1)) = m by omega] at this
  · next hk =>
    refine ⟨?_, fun h => absurd h (Nat.lt_irrefl _)⟩
    intro m h1 h2
    have := find_valid_none _ hk (m - (first + 1)) (by simp; omega)
    rw [kind_at_drop] at this
    rwa [show first + 1 + (m - (first + 1)) = m by omega] at this

theorem FindPreviousToken_spec (tokens : Tokens) :
    ∀ (first : Nat), first ≤ tokens.length → (∃ k, k < first ∧ valid_at tokens k) →
      FindPreviousToken tokens first < first ∧
      valid_at tokens (FindPreviousToken tokens first) ∧
      invalid_between tokens (FindPreviousToken tokens first) first := by
  intro first
  induction first with
  | zero => rintro _ ⟨k, hk, _⟩; omega
  | succ i ih =>
    intro hle hex
    have hlt : i < tokens.length := by omega
    have hget : tokens[i]? = some tokens[i] := List.getElem?_eq_getElem hlt
    unfold FindPreviousToken
    rw [hget]
    simp only []
    by_cases hv : is_valid tokens[i] = true
    · rw [if_pos hv]
      refine ⟨by omega, ⟨tokens[i].type, kind_at_some _ _ _ hget, by simpa [is_valid] using hv⟩, ?_⟩
      intro k h1 h2; omega
    · rw [if_neg hv]
      have hinv : kind_at tokens i = some TokenType.Invalid := by
        rw [kind_at_some _ _ _ hget]
        simpa [is_valid] using hv
      obtain ⟨k, hk, hkv⟩ := hex
      have hki : k ≠ i := by
        rintro rfl
        obtain ⟨type, h1, h2⟩ := hkv
        rw [hinv] at h1
        cases h1
        exact h2 rfl
      obtain ⟨h1, h2, h3⟩ := ih (by omega) ⟨k, by omega, hkv⟩
      refine ⟨by omega, h2, ?_⟩
      intro m hm1 hm2
      by_cases hmi : m = i
      · subst hmi; exact hinv
      · exact h3 m hm1 (by omega)
/-! ## Validator: a merge into the nearest valid token keeps the text -/

theorem concat_valid_cons (t : Token) (rest : Tokens) :
    concat_valid (t :: rest)
      = if is_valid t = true then t.content ++ concat_valid rest else concat_valid rest := by
  unfold concat_valid remove_invalid is_valid
  by_cases h : t.type = TokenType.Invalid
  · simp [h]
  · simp [h, concat_values]

theorem concat_valid_set_invalid (tokens : Tokens) :
    ∀ (i : Nat) (t : Token), tokens[i]? = some t → is_valid t = true →
      (∀ k, k < i → kind_at tokens k = some TokenType.Invalid) →
      concat_valid tokens = t.content ++ concat_valid (tokens.set i (invalidate t)) := by
  induction tokens with
  | nil => intro i t h; simp at h
  | cons x xs ih =>
    intro i t hget hv hbefore
    cases i with
    | zero =>
      simp only [List.getElem?_cons_zero, Option.some.injEq] at hget
      subst hget
      rw [List.set_cons_zero, concat_valid_cons, concat_valid_cons, if_pos hv]
      simp [is_valid, invalidate]
    | succ m =>
      have hx : is_valid x = false := by
        have := hbefore 0 (by omega)
        rw [kind_at_zero] at this
        simp only [Option.some.injEq] at this
        simp [is_valid, this]
      rw [List.set_cons_succ, concat_valid_cons, concat_valid_cons]
      simp only [hx, Bool.false_eq_true, if_false]
      apply ih m t (by simpa using hget) hv
      intro k hk
      have := hbefore (k + 1) (by omega)
      rwa [kind_at_succ] at this

theorem concat_valid_merge (tokens : Tokens) :
    ∀ (j i : Nat) (a t : Token), j < i → tokens[j]? = some a → is_valid a = true →
      tokens[i]? = some t → is_valid t = true → invalid_between tokens j i →
      concat_valid ((tokens.set j { a with content := a.content ++ t.content }).set i
        (invalidate t)) = concat_valid tokens := by
  induction tokens with
  | nil => intro j i a t _ h; simp at h
  | cons x xs ih =>
    intro j i a t hji ha hva ht hvt hb
    obtain ⟨m, rfl⟩ : ∃ m, i = m + 1 := ⟨i - 1, by omega⟩
    cases j with
    | zero =>
      simp only [List.getElem?_cons_zero, Option.some.injEq] at ha
      subst ha
      have hva2 : is_valid { x with content := x.content ++ t.content } = true := hva
      rw [List.set_cons_zero, List.set_cons_succ, concat_valid_cons, concat_valid_cons,
        if_pos hva, if_pos hva2]
      rw [concat_valid_set_invalid xs m t (by simpa using ht) hvt]
      · simp
      · intro k hk
        have := hb (k + 1) (by omega) (by omega)
        rwa [kind_at_succ] at this
    | succ n =>
      rw [List.set_cons_succ, List.set_cons_succ, concat_valid_cons, concat_valid_cons]
      rw [ih n m a t (by omega) (by simpa using ha) hva (by simpa using ht) hvt]
      intro k h1 h2
      have := hb (k + 1) (by omega) (by omega)
      rwa [kind_at_succ] at this

theorem concat_valid_set_type (tokens : Tokens) :
    ∀ (i : Nat) (t : Token) (type : TokenType), tokens[i]? = some t → is_valid t = true →
      type ≠ TokenType.Invalid →
      concat_valid (tokens.set i { t with type := type }) = concat_valid tokens := by
  induction tokens with
  | nil => intro i t type h; simp at h
  | cons x xs ih =>
    intro i t type hget hv hty
    cases i with
    | zero =>
      simp only [List.getElem?_cons_zero, Option.some.injEq] at hget
      subst hget
      have hv2 : is_valid { x with type := type } = true := by simpa [is_valid] using hty
      rw [List.set_cons_zero, concat_valid_cons, concat_valid_cons, if_pos hv, if_pos hv2]
    | succ m =>
      rw [List.set_cons_succ, concat_valid_cons, concat_valid_cons,
        ih m t type (by simpa using hget) hv hty]

theorem kind_at_set_ne (tokens : Tokens) (i k : Nat) (u : Token) (h : k ≠ i) :
    kind_at (tokens.set i u) k = kind_at tokens k := by
  unfold kind_at
  rw [List.getElem?_set_ne (Ne.symm h)]

theorem kind_at_set_eq (tokens : Tokens) (i : Nat) (u : Token) (h : i < tokens.length) :
    kind_at (tokens.set i u) i = some u.type := by
  unfold kind_at
  rw [List.getElem?_set_self h]
  rfl

theorem append_token_to_eq (tokens : Tokens) (i j : Nat) (t a : Token)
    (ht : tokens[i]? = some t) (ha : tokens[j]? = some a) (hne : i ≠ j) :
    append_token_to tokens i j = .ok
      ((tokens.set j { a with content := a.content ++ t.content }).set i (invalidate t)) := by
  unfold append_token_to set_type
  rw [ht, ha]
  simp only []
  rw [List.getElem?_set_ne (Ne.symm hne), ht]
  rfl

/-- A merge of the valid token `i` into the valid token `j` before it, with nothing valid in
between, succeeds, keeps the text of the valid tokens and changes no kind but that of `i`. -/
theorem good_merge (tokens : Tokens) (i j : Nat) (hji : j < i) (hj : valid_at tokens j)
    (hi : valid_at tokens i) (hb : invalid_between tokens j i) :
    ∃ out, append_token_to tokens i j = .ok out ∧ out.length = tokens.length ∧
      concat_valid out = concat_valid tokens ∧
      kind_at out i = some TokenType.Invalid ∧
      (∀ k, k ≠ i → kind_at out k = kind_at tokens k) ∧
      ((∀ t ∈ tokens, t.content ≠ []) → ∀ t ∈ out, t.content ≠ []) := by
  obtain ⟨tyj, hkj, hvj⟩ := hj
  obtain ⟨tyi, hki, hvi⟩ := hi
  obtain ⟨a, ha, hat⟩ := kind_at_exists _ _ _ hkj
  obtain ⟨t, ht, htt⟩ := kind_at_exists _ _ _ hki
  have hilt : i < tokens.length := kind_at_lt _ _ _ hki
  have hjlt : j < tokens.length := kind_at_lt _ _ _ hkj
  have heq := append_token_to_eq tokens i j t a ht ha (by omega)
  refine ⟨_, heq, by simp, ?_, ?_, ?_, ?_⟩
  · exact concat_valid_merge tokens j i a t hji ha (by simpa [is_valid, hat] using hvj) ht
      (by simpa [is_valid, htt] using hvi) hb
  · rw [kind_at_set_eq _ _ _ (by simpa using hilt)]
    rfl
  · intro k hk
    rw [kind_at_set_ne _ _ _ _ hk]
    by_cases hkj2 : k = j
    · subst hkj2
      rw [kind_at_set_eq _ _ _ hjlt, hkj, ← hat]
    · rw [kind_at_set_ne _ _ _ _ hkj2]
  · intro hne
    exact append_token_to_forall (fun t => t.content ≠ []) tokens i j _ hne
      (fun _ h => h) (fun a t ha _ => by simp [ha]) heq
/-! ## Validator: every step of the scan keeps the invariant -/

theorem valid_at_frame (tokens out : Tokens) (i k : Nat)
    (hframe : ∀ k, k ≠ i → kind_at out k = kind_at tokens k) (hk : k ≠ i)
    (h : valid_at tokens k) : valid_at out k := by
  obtain ⟨type, h1, h2⟩ := h
  exact ⟨type, by rw [hframe k hk]; exact h1, h2⟩

theorem invalid_between_frame (tokens out : Tokens) (i a b : Nat)
    (hi : kind_at out i = some TokenType.Invalid)
    (hframe : ∀ k, k ≠ i → kind_at out k = kind_at tokens k)
    (h : invalid_between tokens a b) : invalid_between out a b := by
  intro k h1 h2
  by_cases hk : k = i
  · subst hk; exact hi
  · rw [hframe k hk]; exact h k h1 h2

theorem invalid_between_join (tokens : Tokens) (p i n : Nat)
    (h1 : invalid_between tokens p i) (hi : kind_at tokens i = some TokenType.Invalid)
    (h2 : invalid_between tokens i n) : invalid_between tokens p n := by
  intro k hk1 hk2
  rcases Nat.lt_trichotomy k i with h | h | h
  · exact h1 k hk1 h
  · subst h; exact hi
  · exact h2 k h hk2

theorem valid_at_of_unknown (tokens : Tokens) (it : Nat)
    (h : is_unknown_token tokens it = true) : valid_at tokens it :=
  ⟨TokenType.Unknown, (is_unknown_token_iff tokens it).mp h, by simp⟩

theorem valid_at_of_delimiter (tokens : Tokens) (it : Nat)
    (h : is_delimiter_token tokens it = true) : valid_at tokens it :=
  ⟨TokenType.Delimiter, (is_delimiter_token_iff tokens it).mp h, by simp⟩

theorem front_at_ok (tokens : Tokens) (it : Nat) (hne : ∀ t ∈ tokens, t.content ≠ [])
    (hlt : it < tokens.length) : ∃ c, front_at tokens it = .ok c := by
  have hget : tokens[it]? = some tokens[it] := List.getElem?_eq_getElem hlt
  have hc := hne _ (List.getElem?_mem hget)
  unfold front_at
  rw [hget]
  cases hcont : tokens[it].content with
  | nil => exact absurd hcont hc
  | cons c rest => exact ⟨c, by simp [front, hcont]⟩

/-- A merge that keeps the invariant of the scan. -/
theorem merge_step (input : List Char) (size : Nat) (tokens : Tokens) (i j : Nat)
    (hinv : scan_invariant input size tokens) (hji : j < i) (hj : valid_at tokens j)
    (hi : valid_at tokens i) (hb : invalid_between tokens j i) :
    ∃ out, append_token_to tokens i j = .ok out ∧ scan_invariant input size out ∧
      kind_at out i = some TokenType.Invalid ∧
      (∀ k, k ≠ i → kind_at out k = kind_at tokens k) := by
  obtain ⟨out, h1, h2, h3, h4, h5, h6⟩ := good_merge tokens i j hji hj hi hb
  refine ⟨out, h1, ⟨h2.trans hinv.1, h6 hinv.2.1, h3.trans hinv.2.2.1, ?_⟩, h4, h5⟩
  exact valid_at_frame tokens out i 0 h5 (by omega) hinv.2.2.2

theorem absorb_loop_stop (fuel : Nat) (tokens : Tokens) (nt pt : Nat) (d : Char)
    (hU : is_unknown_token tokens nt = false) :
    absorb_loop (fuel + 1) tokens nt pt d = .ok tokens := by
  rw [absorb_loop]
  simp [hU]

theorem absorb_loop_step_other (fuel : Nat) (ts ts1 : Tokens) (nt pt : Nat) (d c : Char)
    (hU : is_unknown_token ts nt = true)
    (h1 : append_token_to ts nt pt = .ok ts1)
    (hF : front_at ts1 (FindNextToken ts1 nt) = .ok c) (hc : c ≠ d) :
    absorb_loop (fuel + 1) ts nt pt d = absorb_loop fuel ts1 (FindNextToken ts1 nt) pt d := by
  rw [absorb_loop]
  simp [hU, h1, hF, hc, bind, Except.bind]

theorem absorb_loop_total (input : List Char) (size : Nat) (p : Nat) (d : Char) :
    ∀ (fuel : Nat) (tokens : Tokens) (n : Nat), scan_invariant input size tokens →
      p < n → valid_at tokens p → invalid_between tokens p n → size - n < fuel →
      ∃ out, absorb_loop fuel tokens n p d = .ok out ∧ scan_invariant input size out := by
  intro fuel
  induction fuel with
  | zero => intro tokens n _ _ _ _ h; omega
  | succ fuel ih =>
    intro tokens n hinv hpn hp hb hfuel
    by_cases hU : is_unknown_token tokens n = true
    · have hn := valid_at_of_unknown tokens n hU
      have hnlt : n < size := by rw [← hinv.1]; exact valid_at_lt _ _ hn
      obtain ⟨ts1, h1, hinv1, hk1, hf1⟩ := merge_step input size tokens n p hinv hpn hp hn hb
      have hn1 : n < FindNextToken ts1 n := FindNextToken_gt ts1 n (by rw [hinv1.1]; exact hnlt)
      have hp1 : valid_at ts1 p := valid_at_frame tokens ts1 n p hf1 (by omega) hp
      have hb1 : invalid_between ts1 p (FindNextToken ts1 n) :=
        invalid_between_join ts1 p n _ (invalid_between_frame tokens ts1 n p n hk1 hf1 hb) hk1
          (FindNextToken_spec ts1 n).1
      by_cases hD : is_delimiter_token ts1 (FindNextToken ts1 n) = true
      · have hv1 := valid_at_of_delimiter ts1 _ hD
        have hlt1 : FindNextToken ts1 n < size := by rw [← hinv1.1]; exact valid_at_lt _ _ hv1
        obtain ⟨c, hF⟩ := front_at_ok ts1 (FindNextToken ts1 n) hinv1.2.1
          (by rw [hinv1.1]; exact hlt1)
        by_cases hc : c = d
        · subst hc
          obtain ⟨ts2, h2, hinv2, hk2, hf2⟩ := merge_step input size ts1 (FindNextToken ts1 n) p
            hinv1 (by omega) hp1 hv1 hb1
          rw [absorb_loop_step_delimiter fuel tokens ts1 ts2 n p c hU h1 hD hF h2]
          have hn2 := FindNextToken_gt ts2 (FindNextToken ts1 n) (by rw [hinv2.1]; exact hlt1)
          exact ih ts2 _ hinv2 (by omega)
            (valid_at_frame ts1 ts2 _ p hf2 (by omega) hp1)
            (invalid_between_join ts2 p (FindNextToken ts1 n) _
              (invalid_between_frame ts1 ts2 _ p _ hk2 hf2 hb1) hk2
              (FindNextToken_spec ts2 _).1)
            (by omega)
        · rw [absorb_loop_step_other fuel tokens ts1 n p d c hU h1 hF hc]
          exact ih ts1 _ hinv1 (by omega) hp1 hb1 (by omega)
      · rw [absorb_loop_step_unknown fuel tokens ts1 n p d hU h1 (by simpa using hD)]
        exact ih ts1 _ hinv1 (by omega) hp1 hb1 (by omega)
    · rw [absorb_loop_stop fuel tokens n p d (by simpa using hU)]
      exact ⟨tokens, rfl, hinv⟩
theorem set_type_eq (tokens : Tokens) (it : Nat) (t : Token) (type : TokenType)
    (ht : tokens[it]? = some t) :
    set_type tokens it type = .ok (tokens.set it { t with type := type }) := by
  unfold set_type
  rw [ht]

theorem set_type_step (input : List Char) (size : Nat) (tokens : Tokens) (i : Nat)
    (hinv : scan_invariant input size tokens) (hi1 : 1 ≤ i) (hi : valid_at tokens i) :
    ∃ out, set_type tokens i TokenType.Unknown = .ok out ∧ scan_invariant input size out ∧
      (∀ k, k ≠ i → kind_at out k = kind_at tokens k) := by
  obtain ⟨type, hk, hv⟩ := hi
  obtain ⟨t, ht, htt⟩ := kind_at_exists _ _ _ hk
  have heq := set_type_eq tokens i t TokenType.Unknown ht
  have hframe : ∀ k, k ≠ i →
      kind_at (tokens.set i { t with type := TokenType.Unknown }) k = kind_at tokens k :=
    fun k hk => kind_at_set_ne tokens i k _ hk
  refine ⟨_, heq, ⟨by simpa using hinv.1, ?_, ?_, ?_⟩, hframe⟩
  · exact set_type_forall (fun t => t.content ≠ []) tokens i _ _ hinv.2.1 (fun _ h => h) heq
  · rw [concat_valid_set_type tokens i t _ ht (by simpa [is_valid, htt] using hv) (by simp)]
    exact hinv.2.2.1
  · exact valid_at_frame tokens _ i 0 hframe (by omega) hinv.2.2.2

theorem double_merge (input : List Char) (size : Nat) (tokens : Tokens) (i p n : Nat)
    (hinv : scan_invariant input size tokens) (hpi : p < i) (hin : i < n)
    (hp : valid_at tokens p) (hi : valid_at tokens i) (hn : valid_at tokens n)
    (hb1 : invalid_between tokens p i) (hb2 : invalid_between tokens i n) :
    ∃ out, (append_token_to tokens i p >>= fun ts => append_token_to ts n p) = .ok out ∧
      scan_invariant input size out := by
  obtain ⟨ts1, h1, hinv1, hk1, hf1⟩ := merge_step input size tokens i p hinv hpi hp hi hb1
  obtain ⟨ts2, h2, hinv2, _, _⟩ := merge_step input size ts1 n p hinv1 (by omega)
    (valid_at_frame tokens ts1 i p hf1 (by omega) hp)
    (valid_at_frame tokens ts1 i n hf1 (by omega) hn)
    (invalid_between_join ts1 p i n (invalid_between_frame tokens ts1 i p i hk1 hf1 hb1) hk1
      (invalid_between_frame tokens ts1 i i n hk1 hf1 hb2))
  exact ⟨ts2, by rw [h1]; exact h2, hinv2⟩

theorem adjacent_delimiters_total (input : List Char) (size : Nat) (tokens : Tokens)
    (i p n : Nat) (d : Char) (hinv : scan_invariant input size tokens) (hi1 : 1 ≤ i)
    (hpi : p < i) (hin : i < n) (hp : valid_at tokens p) (hi : valid_at tokens i)
    (hb : invalid_between tokens p i) :
    ∃ out, adjacent_delimiters tokens i p n d = .ok out ∧ scan_invariant input size out ∧
      (out = tokens ∨
        ¬ (is_unknown_token out p = true ∧ is_unknown_token out n = true)) := by
  unfold adjacent_delimiters
  by_cases h1 : (is_unknown_token tokens p && is_delimiter_token tokens n) = true
  · rw [if_pos h1]
    have hD : is_delimiter_token tokens n = true := by
      simp only [Bool.and_eq_true] at h1; exact h1.2
    obtain ⟨c, hF⟩ := front_at_ok tokens n hinv.2.1 (is_delimiter_token_lt _ _ hD)
    rw [hF]
    simp only [bind, Except.bind]
    by_cases h2 : d ≠ c ∧ d ≠ ','
    · rw [if_pos h2]
      by_cases h3 : c = ' ' ∨ c = '_'
      · rw [if_pos h3]
        obtain ⟨out, ho, hinvo, _, hfo⟩ := merge_step input size tokens i p hinv hpi hp hi hb
        refine ⟨out, ho, hinvo, Or.inr ?_⟩
        rintro ⟨_, hu⟩
        have hk := (is_unknown_token_iff out n).mp hu
        rw [hfo n (by omega), (is_delimiter_token_iff tokens n).mp hD] at hk
        cases hk
      · rw [if_neg h3]
        exact ⟨tokens, rfl, hinv, Or.inl rfl⟩
    · rw [if_neg h2]
      exact ⟨tokens, rfl, hinv, Or.inl rfl⟩
  · rw [if_neg h1]
    by_cases h2 : (is_delimiter_token tokens p && is_delimiter_token tokens n) = true
    · rw [if_pos h2]
      simp only [Bool.and_eq_true] at h2
      obtain ⟨c1, hF1⟩ := front_at_ok tokens p hinv.2.1 (is_delimiter_token_lt _ _ h2.1)
      obtain ⟨c2, hF2⟩ := front_at_ok tokens n hinv.2.1 (is_delimiter_token_lt _ _ h2.2)
      rw [hF1, hF2]
      simp only [bind, Except.bind]
      by_cases h3 : c1 = c2 ∧ c1 ≠ d
      · rw [if_pos h3]
        obtain ⟨out, ho, hinvo, hfo⟩ := set_type_step input size tokens i hinv hi1 hi
        refine ⟨out, ho, hinvo, Or.inr ?_⟩
        rintro ⟨hu, _⟩
        have hk := (is_unknown_token_iff out p).mp hu
        rw [hfo p (by omega), (is_delimiter_token_iff tokens p).mp h2.1] at hk
        cases hk
      · rw [if_neg h3]
        exact ⟨tokens, rfl, hinv, Or.inl rfl⟩
    · rw [if_neg h2]
      exact ⟨tokens, rfl, hinv, Or.inl rfl⟩

theorem special_cases_total (input : List Char) (size : Nat) (tokens ts1 : Tokens)
    (i p n : Nat) (d : Char) (hinv : scan_invariant input size tokens)
    (hinv1 : scan_invariant input size ts1)
    (hsame : ts1 = tokens ∨
      ¬ (is_unknown_token ts1 p = true ∧ is_unknown_token ts1 n = true))
    (hpi : p < i) (hin : i < n) (hp : valid_at tokens p) (hi : valid_at tokens i)
    (hb1 : invalid_between tokens p i) (hb2 : invalid_between tokens i n) :
    ∃ out, special_cases ts1 i p n d = .ok out ∧ scan_invariant input size out := by
  unfold special_cases
  by_cases hd : d = '&' ∨ d = '+'
  · rw [if_pos hd]
    by_cases hU : (is_unknown_token ts1 p && is_unknown_token ts1 n) = true
    · rw [if_pos hU]
      simp only [Bool.and_eq_true] at hU
      rcases hsame with hs | hs
      · subst hs
        obtain ⟨tp, htp, _⟩ := kind_at_exists _ _ _ ((is_unknown_token_iff ts1 p).mp hU.1)
        obtain ⟨tn, htn, _⟩ := kind_at_exists _ _ _ ((is_unknown_token_iff ts1 n).mp hU.2)
        rw [htp, htn]
        simp only []
        by_cases hnum : (IsNumericString tp.content && IsNumericString tn.content) = true
        · rw [if_pos hnum]
          exact double_merge input size ts1 i p n hinv hpi hin hp hi
            (valid_at_of_unknown ts1 n hU.2) hb1 hb2
        · rw [if_neg hnum]
          exact ⟨ts1, rfl, hinv1⟩
      · exact absurd hU hs
    · rw [if_neg hU]
      exact ⟨ts1, rfl, hinv1⟩
  · rw [if_neg hd]
    exact ⟨ts1, rfl, hinv1⟩

theorem rules_total (input : List Char) (size : Nat) (tokens : Tokens)
    (i p n : Nat) (d : Char) (hinv : scan_invariant input size tokens) (hi1 : 1 ≤ i)
    (hpi : p < i) (hin : i < n) (hp : valid_at tokens p) (hi : valid_at tokens i)
    (hb1 : invalid_between tokens p i) (hb2 : invalid_between tokens i n) :
    ∃ out, (adjacent_delimiters tokens i p n d >>= fun ts => special_cases ts i p n d)
        = .ok out ∧ scan_invariant input size out := by
  obtain ⟨ts1, h1, hinv1, hsame⟩ :=
    adjacent_delimiters_total input size tokens i p n d hinv hi1 hpi hin hp hi hb1
  obtain ⟨out, h2, hinv2⟩ :=
    special_cases_total input size tokens ts1 i p n d hinv hinv1 hsame hpi hin hp hi hb1 hb2
  exact ⟨out, by rw [h1]; exact h2, hinv2⟩
theorem validate_token_delimiter (tokens : Tokens) (token : Nat) (t : Token) (d : Char)
    (rest : List Char) (ht : tokens[token]? = some t) (hty : t.type = TokenType.Delimiter)
    (hc : t.content = d :: rest) :
    validate_token tokens token =
      if d ≠ ' ' ∧ d ≠ '_' then
        if is_single_character_token tokens (FindPreviousToken tokens token) then
          append_token_to tokens token (FindPreviousToken tokens token) >>= fun ts =>
            absorb_loop (ts.length + 1) ts (FindNextToken tokens token)
              (FindPreviousToken tokens token) d
        else if is_single_character_token tokens (FindNextToken tokens token) then
          append_token_to tokens token (FindPreviousToken tokens token) >>= fun ts =>
            append_token_to ts (FindNextToken tokens token) (FindPreviousToken tokens token)
        else
          adjacent_delimiters tokens token (FindPreviousToken tokens token)
            (FindNextToken tokens token) d >>= fun ts =>
              special_cases ts token (FindPreviousToken tokens token)
                (FindNextToken tokens token) d
      else
        adjacent_delimiters tokens token (FindPreviousToken tokens token)
          (FindNextToken tokens token) d >>= fun ts =>
            special_cases ts token (FindPreviousToken tokens token)
              (FindNextToken tokens token) d := by
  unfold validate_token
  rw [ht]
  simp only [hty, hc, ne_eq, not_true_eq_false, if_false]
  rfl

theorem is_unknown_of_single_character (tokens : Tokens) (it : Nat)
    (h : is_single_character_token tokens it = true) : is_unknown_token tokens it = true := by
  unfold is_single_character_token at h
  unfold is_unknown_token
  cases hget : tokens[it]? with
  | none => simp [hget] at h
  | some t =>
    simp only [hget, Bool.and_eq_true] at h
    exact h.1.1

theorem validate_token_total (input : List Char) (size : Nat) (tokens : Tokens) (i : Nat)
    (hinv : scan_invariant input size tokens) (hi1 : 1 ≤ i) (hlt : i < size) :
    ∃ out, validate_token tokens i = .ok out ∧ scan_invariant input size out := by
  have hlt2 : i < tokens.length := by rw [hinv.1]; exact hlt
  have hget : tokens[i]? = some tokens[i] := List.getElem?_eq_getElem hlt2
  by_cases hty : tokens[i].type = TokenType.Delimiter
  · have hne := hinv.2.1 _ (List.getElem?_mem hget)
    obtain ⟨d, rest, hc⟩ := List.exists_cons_of_ne_nil hne
    have hi : valid_at tokens i :=
      ⟨_, kind_at_some _ _ _ hget, by rw [hty]; simp⟩
    obtain ⟨hpi, hp, hb1⟩ := FindPreviousToken_spec tokens i (by omega)
      ⟨0, by omega, hinv.2.2.2⟩
    have hin := FindNextToken_gt tokens i hlt2
    have hnle := FindNextToken_le tokens i
    have hb2 := (FindNextToken_spec tokens i).1
    have hrules := rules_total input size tokens i _ _ d hinv hi1 hpi hin hp hi hb1 hb2
    rw [validate_token_delimiter tokens i _ d rest hget hty hc]
    by_cases hweak : d ≠ ' ' ∧ d ≠ '_'
    · rw [if_pos hweak]
      by_cases hs1 : is_single_character_token tokens (FindPreviousToken tokens i) = true
      · rw [if_pos hs1]
        obtain ⟨ts1, h1, hinv1, hk1, hf1⟩ := merge_step input size tokens i _ hinv hpi hp hi hb1
        rw [h1]
        show ∃ out, absorb_loop (ts1.length + 1) ts1 _ _ d = .ok out ∧ _
        exact absorb_loop_total input size _ d _ ts1 _ hinv1 (by omega)
          (valid_at_frame tokens ts1 i _ hf1 (by omega) hp)
          (invalid_between_join ts1 _ i _
            (invalid_between_frame tokens ts1 i _ _ hk1 hf1 hb1) hk1
            (invalid_between_frame tokens ts1 i _ _ hk1 hf1 hb2))
          (by rw [hinv1.1]; omega)
      · rw [if_neg hs1]
        by_cases hs2 : is_single_character_token tokens (FindNextToken tokens i) = true
        · rw [if_pos hs2]
          exact double_merge input size tokens i _ _ hinv hpi hin hp hi
            (valid_at_of_unknown tokens _ (is_unknown_of_single_character _ _ hs2)) hb1 hb2
        · rw [if_neg hs2]
          exact hrules
    · rw [if_neg hweak]
      exact hrules
  · exact ⟨tokens, validate_token_skip tokens i _ hget hty, hinv⟩

theorem adjacent_delimiters_no_previous (tokens : Tokens) (token next_token : Nat)
    (d : Char) :
    adjacent_delimiters tokens token tokens.length next_token d = .ok tokens := by
  unfold adjacent_delimiters
  simp [is_unknown_token_end, is_delimiter_token_end]

theorem validate_token_first (t0 : Token) (rest : Tokens)
    (h : t0.type = TokenType.Delimiter → ∃ s, t0.content = [s] ∧ (s = ' ' ∨ s = '_')) :
    validate_token (t0 :: rest) 0 = .ok (t0 :: rest) := by
  by_cases hty : t0.type = TokenType.Delimiter
  · obtain ⟨s, hc, hs⟩ := h hty
    have hstrong : ¬ (s ≠ ' ' ∧ s ≠ '_') := by
      rcases hs with h | h <;> subst h <;> decide
    rw [validate_token_delimiter (t0 :: rest) 0 t0 s [] (by simp) hty hc, if_neg hstrong]
    have hprev : FindPreviousToken (t0 :: rest) 0 = (t0 :: rest).length := rfl
    rw [hprev, adjacent_delimiters_no_previous]
    exact special_cases_strong s hs _ _ _ _
  · exact validate_token_skip (t0 :: rest) 0 t0 (by simp) hty

theorem validate_scan_total (input : List Char) (size : Nat) :
    ∀ (fuel : Nat) (tokens : Tokens) (i : Nat), scan_invariant input size tokens →
      1 ≤ i → i ≤ size → size - i < fuel →
      ∃ out, validate_scan fuel tokens i = .ok out ∧ scan_invariant input size out := by
  intro fuel
  induction fuel with
  | zero => intro tokens i _ _ _ h; omega
  | succ fuel ih =>
    intro tokens i hinv hi1 hle hfuel
    unfold validate_scan
    by_cases hend : i = tokens.length
    · rw [if_neg (by simpa using hend)]
      exact ⟨tokens, rfl, hinv⟩
    · rw [if_pos hend]
      have hlt : i < size := by
        have := hinv.1
        omega
      obtain ⟨ts1, h1, hinv1⟩ := validate_token_total input size tokens i hinv hi1 hlt
      rw [h1]
      exact ih ts1 (i + 1) hinv1 (by omega) (by omega) (by omega)
/-! ## The first token -/

theorem TokenizeByDelimiters_head (c : Char) (rest : List Char) (options : Options)
    (enclosed : Bool) :
    ∃ t0 tl, TokenizeByDelimiters (c :: rest) options enclosed [] = t0 :: tl ∧
      t0.type ≠ TokenType.Invalid ∧
      (t0.type = TokenType.Delimiter → t0.content = [c] ∧ c ∈ options.allowed_delimiters) := by
  by_cases hc : c ∈ options.allowed_delimiters
  · rw [TokenizeByDelimiters_delimiter c rest options enclosed [] hc,
      TokenizeByDelimiters_append]
    exact ⟨_, _, rfl, by simp, fun _ => ⟨rfl, hc⟩⟩
  · cases hpos : find_first_of (c :: rest) options.allowed_delimiters with
    | none =>
      rw [TokenizeByDelimiters_none _ _ _ _ (by simp) hpos]
      exact ⟨_, _, rfl, by simp, fun h => by simp at h⟩
    | some k =>
      obtain ⟨w, x, r, hview, _, hw, hx⟩ := find_if_split _ _ k hpos
      have hwne : w ≠ [] := by
        rintro rfl
        simp only [List.nil_append, List.cons.injEq] at hview
        rw [hview.1] at hc
        exact hc (by simpa using hx)
      rw [hview, TokenizeByDelimiters_word_delimiter w x r options enclosed [] hwne
        (fun y hy => by simpa using hw y hy) (by simpa using hx),
        TokenizeByDelimiters_append]
      exact ⟨_, _, rfl, by simp, fun h => by simp at h⟩

theorem TokenizeByBrackets_head (c : Char) (rest : List Char) (options : Options) :
    ∃ t0 tl, TokenizeByBrackets (c :: rest) options [] = t0 :: tl ∧
      t0.type ≠ TokenType.Invalid ∧
      (t0.type = TokenType.Delimiter → t0.content = [c] ∧ c ∈ options.allowed_delimiters) := by
  unfold TokenizeByBrackets
  cases hpos : find_first_of (c :: rest) brackets_left with
  | none =>
    rw [TokenizeByBracketsLoop_closed_none _ _ _ _ hpos]
    exact TokenizeByDelimiters_head c rest options false
  | some k =>
    obtain ⟨w, x, r, hview, hwl, _, _⟩ := find_if_split _ _ k hpos
    subst hwl
    rw [TokenizeByBracketsLoop_closed_some _ _ _ _ _ hpos, TokenizeByBracketsLoop_append]
    rw [hview, substr_word, substr_after_word]
    cases w with
    | nil =>
      rw [TokenizeByDelimiters_nil]
      exact ⟨_, _, rfl, by simp, fun h => by simp at h⟩
    | cons y ys =>
      have hy : y = c := by
        simp only [List.cons_append, List.cons.injEq] at hview
        exact hview.1.symm
      subst hy
      obtain ⟨t0, tl, h0, h1, h2⟩ := TokenizeByDelimiters_head y ys options false
      rw [h0]
      exact ⟨t0, _, rfl, h1, h2⟩

/-- C19: for every input string whose first character is not a configured delimiter other than
space or underscore, every merge in `ValidateTokens` has an existing target, so `Tokenize`
returns a token sequence, and concatenating the values of the returned tokens gives back the
input string exactly. -/
theorem Tokenize_reconstructs (filename : List Char) (options : Options)
    (hfirst : ∀ c, filename.head? = some c → c ∈ options.allowed_delimiters →
      c = ' ' ∨ c = '_') :
    ∃ tokens, Tokenize filename options = .ok tokens ∧ concat_values tokens = filename := by
  cases filename with
  | nil =>
    refine ⟨[], ?_, rfl⟩
    simp [Tokenize, TokenizeByBrackets, TokenizeByBracketsLoop, ValidateTokens, validate_scan,
      remove_invalid]
    rfl
  | cons c rest =>
    obtain ⟨t0, tl, hts, hv0, hd0⟩ := TokenizeByBrackets_head c rest options
    have hne := TokenizeByBrackets_nonempty (c :: rest) options
    have hval := TokenizeByBrackets_valid (c :: rest) options
    have hcat : concat_values (TokenizeByBrackets (c :: rest) options []) = c :: rest := by
      unfold TokenizeByBrackets
      rw [TokenizeByBracketsLoop_concat options _ (c :: rest) false char_zero [] rfl]
      rfl
    rw [hts] at hne hval hcat
    have hinv : scan_invariant (c :: rest) (t0 :: tl).length (t0 :: tl) := by
      refine ⟨rfl, hne, ?_, ⟨t0.type, kind_at_zero t0 tl, hv0⟩⟩
      unfold concat_valid
      rw [remove_invalid_of_valid _ hval]
      exact hcat
    have hstep0 : validate_token (t0 :: tl) 0 = .ok (t0 :: tl) :=
      validate_token_first t0 tl (fun hty =>
        ⟨c, (hd0 hty).1, hfirst c rfl (hd0 hty).2⟩)
    obtain ⟨out, hscan, hout⟩ := validate_scan_total (c :: rest) (t0 :: tl).length
      (t0 :: tl).length (t0 :: tl) 1 hinv (by omega) (by simp) (by simp)
    refine ⟨remove_invalid out, ?_, hout.2.2.1⟩
    unfold Tokenize ValidateTokens
    rw [hts, validate_scan, if_pos (by simp), hstep0]
    show (validate_scan (t0 :: tl).length (t0 :: tl) 1 >>= fun ts => _) = _
    rw [hscan]
    rfl

/-- Witness for C19: the input `"a-b c"` with space and `-` as delimiters. -/
theorem Tokenize_reconstructs_witness :
    ∃ tokens, Tokenize (str "a-b c") (delimiters " -") = .ok tokens ∧
      concat_values tokens = str "a-b c" :=
  Tokenize_reconstructs (str "a-b c") (delimiters " -") (by
    intro c hc hmem
    have : c = 'a' := by
      simp [str] at hc
      exact hc.symm
    subst this
    revert hmem
    decide)

end anitomy
